import Mathlib

/-!
Verification development for the JP-CABIN mod-translation scripts.

The JavaScript sources are shallowly embedded: strings are lists of
characters (`Str`), JavaScript objects are association lists, JSON values
are the inductive `JTree`, and the remote translation service together with
the file system are modelled as explicit oracle functions passed to the
embedded operations.  Fallible operations return `Except`.
-/

/-- Strings are modelled as lists of characters. -/
abbrev Str := List Char

/-- The whitespace characters recognised by JavaScript's
`String.prototype.trim` (WhiteSpace plus LineTerminator code points). -/
def isJsWS (c : Char) : Bool :=
  c = ' ' || c = '\t' || c = '\n' || c = '\r' ||
  c = Char.ofNat 11 || c = Char.ofNat 12 || c = Char.ofNat 160 ||
  c = Char.ofNat 0x1680 || (0x2000 ≤ c.toNat && c.toNat ≤ 0x200A) ||
  c = Char.ofNat 0x2028 || c = Char.ofNat 0x2029 || c = Char.ofNat 0x202F ||
  c = Char.ofNat 0x205F || c = Char.ofNat 0x3000 || c = Char.ofNat 0xFEFF

/-- JavaScript `String.prototype.trimStart`. -/
def jsTrimStart (s : Str) : Str := s.dropWhile isJsWS

/-- JavaScript `String.prototype.trimEnd` (used on keys in `parseLocalContent`). -/
def jsTrimEnd (s : Str) : Str := (s.reverse.dropWhile isJsWS).reverse

/-- JavaScript `String.prototype.trim`. -/
def jsTrim (s : Str) : Str := jsTrimEnd (jsTrimStart s)

/-- JavaScript `content.split(/\r?\n/)`: both line-ending conventions are
line separators, a lone carriage return is not. -/
def splitLines : Str → List Str
  | [] => [[]]
  | '\n' :: rest => [] :: splitLines rest
  | '\r' :: '\n' :: rest => [] :: splitLines rest
  | c :: rest =>
    match splitLines rest with
    | [] => [[c]]
    | l :: ls => (c :: l) :: ls

/-- Replace every CRLF by LF, the "normalized line endings" of the spec. -/
def normalizeNewlines : Str → Str
  | [] => []
  | '\r' :: '\n' :: rest => '\n' :: normalizeNewlines rest
  | c :: rest => c :: normalizeNewlines rest

/-- JavaScript `lines.join('\n')`. -/
def joinLines : List Str → Str
  | [] => []
  | [l] => l
  | l :: ls => l ++ '\n' :: joinLines ls

/-- Split a line at the first `'='` (JavaScript `line.indexOf('=')` plus the
two `substring` calls): the prefix before the first `'='` and, when a `'='`
is present, the suffix after it. -/
def breakAtEq : Str → Str × Option Str
  | [] => ([], none)
  | c :: rest =>
    if c = '=' then ([], some rest)
    else
      match breakAtEq rest with
      | (pre, post) => (c :: pre, post)

/-- The classification of a parsed `.local` line (the `type` tags
`'empty'`/`'comment'`/`'kv'`/`'other'` of `parseLocalContent`, which the
abbreviated parser `#parseLocal` writes as `'e'`/`'c'`/`'kv'`/`'o'`). -/
inductive LineType where
  | empty
  | comment
  | kv
  | other
deriving DecidableEq, Repr

/-- One element of the array produced by `parseLocalContent`
(indexModTranslator.js).  For non-`kv` lines the JavaScript object carries
no `key`/`value` properties; they default to `[]` here and are never read. -/
structure ParsedLine where
  type : LineType
  key : Str
  value : Str
  translatedValue : Option Str
  originalLine : Str
  lineNumber : Nat
deriving DecidableEq, Repr

/-- Classification of a single line by `parseLocalContent`. -/
def parseLine (line : Str) (lineNumber : Nat) : ParsedLine :=
  let trimmedLine := jsTrim line
  if trimmedLine.isEmpty then
    ⟨.empty, [], [], none, line, lineNumber⟩
  else if trimmedLine.head? = some '#' then
    ⟨.comment, [], [], none, line, lineNumber⟩
  else
    match breakAtEq line with
    | (pre, some post) =>
      -- separatorIndex > 0 means the prefix before the first '=' is non-empty
      if pre.isEmpty then ⟨.other, [], [], none, line, lineNumber⟩
      else
        let key := jsTrimEnd pre
        if (jsTrim key).isEmpty then ⟨.other, [], [], none, line, lineNumber⟩
        else ⟨.kv, key, post, none, line, lineNumber⟩
    | (_, none) => ⟨.other, [], [], none, line, lineNumber⟩

/-- `parseLocalContent` from indexModTranslator.js: split on `/\r?\n/` and
classify each line, with 1-based line numbers. -/
def parseLocalContent (localContent : Str) : List ParsedLine :=
  (splitLines localContent).enum.map (fun p => parseLine p.2 (p.1 + 1))

/-- The per-line serialization inside `reconstructLocal`: a `kv` line is
rebuilt as `key=value` (using `translatedValue` when set), every other line
is its original text. -/
def reconLine (item : ParsedLine) : Str :=
  if item.type = LineType.kv then
    item.key ++ '=' :: (match item.translatedValue with
      | some tv => tv
      | none => item.value)
  else item.originalLine

/-- `reconstructLocal` from indexModTranslator.js: rebuild the lines and
join them with LF. -/
def reconstructLocal (parsedData : List ParsedLine) : Str :=
  joinLines (parsedData.map reconLine)

/-- The extraction filter the main script applies to a parsed `.local` file:
only `kv` lines with a non-empty (after trimming) value are sent for
translation. -/
def localKvToTranslate (parsed : List ParsedLine) : List ParsedLine :=
  parsed.filter (fun l => l.type = LineType.kv && !(jsTrim l.value).isEmpty)

/-- Modelled from the spec: the spec's line classification speaks of the
"first unescaped `=`" of a line.  The source has no escape handling, so this
definition follows the spec's words under the usual properties-file
convention that a `=` immediately preceded by a backslash is escaped.  The
accumulator is the previous character (if any) and the current index. -/
def specFirstUnescapedEqAux : Option Char → Str → Nat → Option Nat
  | _, [], _ => none
  | prev, c :: rest, i =>
    if c = '=' ∧ prev ≠ some '\\' then some i
    else specFirstUnescapedEqAux (some c) rest (i + 1)

/-- Modelled from the spec: index of the first unescaped `=` in a line. -/
def specFirstUnescapedEq (l : Str) : Option Nat :=
  specFirstUnescapedEqAux none l 0

/-- Does the second string start with the first? -/
def strStartsWith : Str → Str → Bool
  | [], _ => true
  | _ :: _, [] => false
  | a :: as, b :: bs => a = b && strStartsWith as bs

/-- JavaScript `haystack.includes(needle)`. -/
def strContains (needle : Str) : Str → Bool
  | [] => needle.isEmpty
  | c :: rest => strStartsWith needle (c :: rest) || strContains needle rest

/-- One entry of the JSON object parsed from the remote response, looked up
at a prompt index's string key: the key may be absent, present with a
non-string value, or present with a string value. -/
inductive RespEntry where
  | absent
  | nonString
  | strVal (s : Str)
deriving DecidableEq

/-- The observable outcome of one remote chat-completion call in
`translateBatchInternal`:
* `success resp` — the response body parsed as a JSON object, abstracted as
  a lookup function on prompt indices;
* `parseFail msg` — `JSON.parse` threw with message `msg`;
* `apiErr (some s)` — the call threw an `OpenAI.APIError` with HTTP status
  `s`;
* `apiErr none` — the call threw some other error (connection problems,
  empty response content, ...). -/
inductive ApiOutcome where
  | success (resp : Nat → RespEntry)
  | parseFail (msg : Str)
  | apiErr (status : Option Nat)

/-- The remote service modelled as a deterministic environment: the outcome
of a call is a function of the texts, prompt indices and split depth sent. -/
abbrev Oracle := List Str → List Nat → Nat → ApiOutcome

/-- The fatal errors the embedded translators can raise (the `Error`s that
are re-thrown rather than swallowed). -/
inductive FatalErr where
  | authFailed
  | rateOrQuota
  | deeplQuota
  | deeplAuth
deriving DecidableEq, Repr

/-- The message text of each fatal error, as thrown by the sources. -/
def fatalMessage : FatalErr → Str
  | .authFailed => ("OpenAI Authorization Failed. Check API Key.".data)
  | .rateOrQuota => ("OpenAI Rate Limit or Quota Exceeded.".data)
  | .deeplQuota => ("DeepL Quota Exceeded".data)
  | .deeplAuth => ("DeepL Authorization Failed. Check API Key.".data)

/-- The main scripts' test for aborting the whole run:
`e.message.includes("Quota Exceeded") || e.message.includes("Authorization Failed")`. -/
def driverTreatsAsFatal (msg : Str) : Bool :=
  strContains ("Quota Exceeded".data) msg || strContains ("Authorization Failed".data) msg

/-- The truncation heuristic guarding batch splitting: the `JSON.parse`
error message contains "Unterminated string", "Unexpected end of JSON
input", or (case-insensitively) "unexpected token". -/
def truncationLike (msg : Str) : Bool :=
  strContains ("Unterminated string".data) msg ||
  strContains ("Unexpected end of JSON input".data) msg ||
  strContains ("unexpected token".data) (msg.map Char.toLower)

/-- `OpenAITranslator.#MAX_SPLIT_DEPTH`. -/
def MAX_SPLIT_DEPTH : Nat := 2

/-- `Math.ceil(length / 2)`, the midpoint used for batch splitting. -/
def batchMid (n : Nat) : Nat := (n + 1) / 2

/-- The result map built from a successfully parsed response: each prompt
index whose response entry is a string gets that string, every other prompt
index falls back to its original text. -/
def successMap (resp : Nat → RespEntry) (promptIndices : List Nat) (texts : List Str) :
    List (Nat × Str) :=
  (promptIndices.zip texts).map (fun p =>
    match resp p.1 with
    | .strVal s => (p.1, s)
    | _ => p)

/-- The result map used when a whole batch falls back: every prompt index
maps to its original text. -/
def fallbackMap (promptIndices : List Nat) (texts : List Str) : List (Nat × Str) :=
  promptIndices.zip texts

/-- One invocation of `translateBatchInternal`, parameterized over what a
recursive sub-batch call does.  `recCall = none` marks an exhausted split
budget; this case is unreachable in `translateBatchInternal` proper, whose
budget is exactly the number of splits its depth guard still allows, and it
conservatively behaves like the whole-batch fallback.

The recursive sub-batch calls are awaited inside the inner (parse-error)
catch block, which sits inside the invocation's outer try: when a sub-batch
call throws — it can only throw the plain fatal `Error` its own outer catch
built from a 401/429 `OpenAI.APIError` — that plain error lands in this
invocation's outer catch, fails `instanceof OpenAI.APIError`, and is
swallowed: the invocation returns the fallback map of its *whole* batch. -/
def translateBatchStep (oracle : Oracle)
    (recCall : Option (List Str → List Nat → Nat → Except FatalErr (List (Nat × Str))))
    (texts : List Str) (promptIndices : List Nat) (depth : Nat) :
    Except FatalErr (List (Nat × Str)) :=
  if texts.length = 0 then .ok []
  else
    match oracle texts promptIndices depth with
    | .success resp => .ok (successMap resp promptIndices texts)
    | .parseFail msg =>
      if 1 < texts.length ∧ depth < MAX_SPLIT_DEPTH ∧ truncationLike msg then
        match recCall with
        | none => .ok (fallbackMap promptIndices texts)
        | some recurse =>
          match recurse (texts.take (batchMid texts.length))
              (promptIndices.take (batchMid texts.length)) (depth + 1) with
          | .error _ => .ok (fallbackMap promptIndices texts)
          | .ok firstHalfResults =>
            match recurse (texts.drop (batchMid texts.length))
                (promptIndices.drop (batchMid texts.length)) (depth + 1) with
            | .error _ => .ok (fallbackMap promptIndices texts)
            | .ok secondHalfResults => .ok (firstHalfResults ++ secondHalfResults)
      else
        -- the re-thrown parse error is caught by the outer catch, which is
        -- not an APIError case, so the whole batch falls back to originals
        .ok (fallbackMap promptIndices texts)
    | .apiErr status =>
      if status = some 401 then .error .authFailed
      else if status = some 429 then .error .rateOrQuota
      else .ok (fallbackMap promptIndices texts)

/-- `translateBatchInternal` with an explicit split budget `gas`
(`MAX_SPLIT_DEPTH - depth` at every call), making the depth-guarded
JavaScript recursion structural. -/
def translateBatchAux (oracle : Oracle) :
    Nat → List Str → List Nat → Nat → Except FatalErr (List (Nat × Str))
  | 0 => translateBatchStep oracle none
  | gas + 1 => translateBatchStep oracle (some (translateBatchAux oracle gas))

/-- `translateBatchInternal` from openaiTranslator.js, as a function of the
remote oracle.  The two sub-batch result maps are merged by concatenation;
their prompt-index key sets are disjoint slices, so this agrees with
`new Map([...first, ...second])`. -/
def translateBatchInternal (oracle : Oracle) (texts : List Str) (promptIndices : List Nat)
    (depth : Nat) : Except FatalErr (List (Nat × Str)) :=
  translateBatchAux oracle (MAX_SPLIT_DEPTH - depth) texts promptIndices depth

/-- Modelled from the spec (claim C2's wording): one invocation that splits
on any parse failure whenever the batch has more than one unit and the
depth is below the maximum — without requiring a truncation-like
parse-error message.  Identical to `translateBatchStep` everywhere else. -/
def translateBatchClaimedStep (oracle : Oracle)
    (recCall : Option (List Str → List Nat → Nat → Except FatalErr (List (Nat × Str))))
    (texts : List Str) (promptIndices : List Nat) (depth : Nat) :
    Except FatalErr (List (Nat × Str)) :=
  if texts.length = 0 then .ok []
  else
    match oracle texts promptIndices depth with
    | .success resp => .ok (successMap resp promptIndices texts)
    | .parseFail _ =>
      if 1 < texts.length ∧ depth < MAX_SPLIT_DEPTH then
        match recCall with
        | none => .ok (fallbackMap promptIndices texts)
        | some recurse =>
          match recurse (texts.take (batchMid texts.length))
              (promptIndices.take (batchMid texts.length)) (depth + 1) with
          | .error _ => .ok (fallbackMap promptIndices texts)
          | .ok firstHalfResults =>
            match recurse (texts.drop (batchMid texts.length))
                (promptIndices.drop (batchMid texts.length)) (depth + 1) with
            | .error _ => .ok (fallbackMap promptIndices texts)
            | .ok secondHalfResults => .ok (firstHalfResults ++ secondHalfResults)
      else .ok (fallbackMap promptIndices texts)
    | .apiErr status =>
      if status = some 401 then .error .authFailed
      else if status = some 429 then .error .rateOrQuota
      else .ok (fallbackMap promptIndices texts)

/-- Modelled from the spec (claim C2's wording): the split-on-any-parse-failure
variant of `translateBatchAux`. -/
def translateBatchClaimedAux (oracle : Oracle) :
    Nat → List Str → List Nat → Nat → Except FatalErr (List (Nat × Str))
  | 0 => translateBatchClaimedStep oracle none
  | gas + 1 => translateBatchClaimedStep oracle (some (translateBatchClaimedAux oracle gas))

/-- Modelled from the spec (claim C2's wording): the split-on-any-parse-failure
variant of `translateBatchInternal`. -/
def translateBatchClaimed (oracle : Oracle) (texts : List Str) (promptIndices : List Nat)
    (depth : Nat) : Except FatalErr (List (Nat × Str)) :=
  translateBatchClaimedAux oracle (MAX_SPLIT_DEPTH - depth) texts promptIndices depth

/-- One invocation of `translateBatchInternal` during a run: the batch texts
and prompt indices it received, and its recursion depth. -/
structure BatchCall where
  texts : List Str
  promptIndices : List Nat
  depth : Nat
deriving DecidableEq, Repr

/-- One step of the call-trace instrumentation: the current invocation
followed by the calls of the two recursive sub-batch invocations, the
second of which only runs when the first returned without a fatal error,
exactly as in the source. -/
def translateBatchCallsStep (oracle : Oracle)
    (recResult : List Str → List Nat → Nat → Except FatalErr (List (Nat × Str)))
    (recCalls : Option (List Str → List Nat → Nat → List BatchCall))
    (texts : List Str) (promptIndices : List Nat) (depth : Nat) : List BatchCall :=
  ⟨texts, promptIndices, depth⟩ ::
    (if texts.length = 0 then []
     else
       match oracle texts promptIndices depth with
       | .parseFail msg =>
         if 1 < texts.length ∧ depth < MAX_SPLIT_DEPTH ∧ truncationLike msg then
           match recCalls with
           | none => []
           | some calls =>
             match recResult (texts.take (batchMid texts.length))
                 (promptIndices.take (batchMid texts.length)) (depth + 1) with
             | .error _ =>
               calls (texts.take (batchMid texts.length))
                 (promptIndices.take (batchMid texts.length)) (depth + 1)
             | .ok _ =>
               calls (texts.take (batchMid texts.length))
                   (promptIndices.take (batchMid texts.length)) (depth + 1) ++
                 calls (texts.drop (batchMid texts.length))
                   (promptIndices.drop (batchMid texts.length)) (depth + 1)
         else []
       | _ => [])

/-- Call-trace instrumentation of `translateBatchAux`: the list of
invocations (including the root) it performs, in call order. -/
def translateBatchCallsAux (oracle : Oracle) :
    Nat → List Str → List Nat → Nat → List BatchCall
  | 0 => fun texts promptIndices depth => [⟨texts, promptIndices, depth⟩]
  | gas + 1 =>
    translateBatchCallsStep oracle (translateBatchAux oracle gas)
      (some (translateBatchCallsAux oracle gas))

/-- The invocations performed by `translateBatchInternal oracle texts promptIndices depth`. -/
def translateBatchCalls (oracle : Oracle) (texts : List Str) (promptIndices : List Nat)
    (depth : Nat) : List BatchCall :=
  translateBatchCallsAux oracle (MAX_SPLIT_DEPTH - depth) texts promptIndices depth

/-- Replace the element at an index, leaving the list unchanged when the
index is out of range (JavaScript `arr[i] = v` for an in-range index). -/
def listSetAt {α : Type} : List α → Nat → α → List α
  | [], _, _ => []
  | _ :: xs, 0, v => v :: xs
  | x :: xs, n + 1, v => x :: listSetAt xs n v

/-- Apply `f` to the element at an index, leaving the list unchanged when
the index is out of range. -/
def listModifyAt {α : Type} (f : α → α) : Nat → List α → List α
  | _, [] => []
  | 0, x :: xs => f x :: xs
  | n + 1, x :: xs => x :: listModifyAt f n xs

/-- The write-back loop of `translateTextsBatch`: for each `(promptIndex,
text)` pair of the internal result map, store `text` at
`originalIndices[promptIndex]` in the full result array. -/
def applyResults (originalIndices : List Nat) (resultsMap : List (Nat × Str))
    (finalResults : List Str) : List Str :=
  resultsMap.foldl (fun acc pr =>
    match originalIndices.get? pr.1 with
    | some oi => listSetAt acc oi pr.2
    | none => acc) finalResults

/-- `translateTextsBatch` from openaiTranslator.js: filter out empty
strings, translate the rest with fresh 0-based prompt indices, and write the
results back at the original positions. -/
def translateTextsBatch (oracle : Oracle) (texts : List Str) : Except FatalErr (List Str) :=
  if texts.length = 0 then .ok []
  else
    let kept := texts.enum.filter (fun p => !(jsTrim p.2).isEmpty)
    let originalIndices := kept.map Prod.fst
    let textsToTranslate := kept.map Prod.snd
    if 0 < textsToTranslate.length then
      match translateBatchInternal oracle textsToTranslate (List.range textsToTranslate.length) 0 with
      | .error e => .error e
      | .ok translatedMap => .ok (applyResults originalIndices translatedMap texts)
    else .ok texts

/-- The driver loop of indexModTranslator.js over the language-file batches,
sequentialized: each batch is translated with `translateBatchInternal` at
depth 0; a fatal error aborts the run, otherwise the per-batch result maps
are accumulated. -/
def runLangBatches (oracle : Oracle) : List (List Str × List Nat) → Except FatalErr (List (Nat × Str))
  | [] => .ok []
  | (texts, promptIndices) :: rest =>
    match translateBatchInternal oracle texts promptIndices 0 with
    | .error e => .error e
    | .ok m =>
      match runLangBatches oracle rest with
      | .error e => .error e
      | .ok r => .ok (m ++ r)

/-- A JSON value.  `prim` collapses numbers, booleans and `null`: none of
them is extracted, descended into, or modified by the embedded operations,
so their distinction is irrelevant here. -/
inductive JTree where
  | str (s : Str)
  | prim
  | arr (elems : List JTree)
  | obj (fields : List (String × JTree))

/-- One component of a locator path inside a `JTree`.  JavaScript uses
strings for both (array indices go through `index.toString()`); since a
component produced at an object position is only ever replayed at an object
position and likewise for arrays, the tagged form is a faithful model. -/
inductive PathKey where
  | fld (k : String)
  | idx (n : Nat)
deriving DecidableEq, Repr

/-- The fixed allow-list of text-bearing field names in
`translatePatchouliBookObject`. -/
def translatableKeys : List String :=
  ["name", "title", "header", "text", "advancement_title", "subtitle", "description"]

/-- First-match association-list lookup (JavaScript property read). -/
def lookupKey : List (String × JTree) → String → Option JTree
  | [], _ => none
  | (k, v) :: rest, key => if k = key then some v else lookupKey rest key

/-- JavaScript `current[key]` for one path component: a field read on an
object, an element read on an array, `undefined` otherwise. -/
def jGet : JTree → PathKey → Option JTree
  | .obj kvs, .fld k => lookupKey kvs k
  | .arr xs, .idx n => xs.get? n
  | _, _ => none

/-- JavaScript `current[key] = v` for one path component, as a functional
update.  An assignment to a fresh object key appends it; an assignment to a
primitive is silently ignored.  (Out-of-range array writes never occur: the
paths replayed always come from a prior traversal of the same shape.) -/
def jSet : JTree → PathKey → JTree → JTree
  | .obj kvs, .fld k, v =>
    if (kvs.map Prod.fst).contains k then
      .obj (kvs.map (fun p => (p.1, if p.1 = k then v else p.2)))
    else .obj (kvs ++ [(k, v)])
  | .arr xs, .idx n, v => .arr (listSetAt xs n v)
  | t, _, _ => t

/-- Apply `f` to the value found at one path component, leaving everything
else (including a missing component) unchanged. -/
def jModify (t : JTree) (k : PathKey) (f : JTree → JTree) : JTree :=
  match t, k with
  | .obj kvs, .fld key => .obj (kvs.map (fun p => (p.1, if p.1 = key then f p.2 else p.2)))
  | .arr xs, .idx n => .arr (listModifyAt f n xs)
  | t, _ => t

/-- Is this value a JavaScript non-null object (array or object)? -/
def isObjLike : JTree → Bool
  | .arr _ => true
  | .obj _ => true
  | _ => false

/-- Is this value a leaf (string or primitive)? -/
def jIsLeaf : JTree → Bool
  | .str _ => true
  | .prim => true
  | _ => false

/-- Navigate a path from a value (repeated `current = current[key]`). -/
def lookupPath : JTree → List PathKey → Option JTree
  | t, [] => some t
  | t, k :: rest =>
    match jGet t k with
    | some sub => lookupPath sub rest
    | none => none

/-- `setValueByPath` from `translatePatchouliBookObject`: walk to the
parent of the path's last component — aborting without change if a step
lands on a non-object — then assign the value at the last component. -/
def setValueByPath (t : JTree) (pathArray : List PathKey) (v : JTree) : JTree :=
  match pathArray with
  | [] => t
  | [k] => jSet t k v
  | k :: rest => jModify t k (fun cur => if isObjLike cur then setValueByPath cur rest v else cur)

/-- Keys of an association list are pairwise distinct (JavaScript objects
cannot carry duplicate keys; `JSON.parse` output always satisfies this). -/
def nodupKeysB : List (String × JTree) → Bool
  | [] => true
  | (k, _) :: rest => !(rest.map Prod.fst).contains k && nodupKeysB rest

mutual

/-- Well-formedness of a parsed JSON value: every object has pairwise
distinct keys. -/
def wfJsonB : JTree → Bool
  | .obj kvs => nodupKeysB kvs && wfFieldsB kvs
  | .arr xs => wfElemsB xs
  | _ => true

/-- Well-formedness of every field value of an object. -/
def wfFieldsB : List (String × JTree) → Bool
  | [] => true
  | (_, v) :: rest => wfJsonB v && wfFieldsB rest

/-- Well-formedness of every element of an array. -/
def wfElemsB : List JTree → Bool
  | [] => true
  | x :: rest => wfJsonB x && wfElemsB rest

end

mutual

/-- `extractStrings` from `translatePatchouliBookObject`: collect
`(path, text)` for every non-empty string sitting under an allow-listed
key, descending into arrays and nested objects.  A `for (const key in obj)`
loop over an object goes through `extractFields`, over an array through
`extractElems` (whose keys are the stringified indices, never in the
allow-list). -/
def extractStrings (t : JTree) (currentPath : List PathKey) : List (List PathKey × Str) :=
  match t with
  | .obj kvs => extractFields kvs currentPath
  | .arr xs => extractElems xs 0 currentPath
  | _ => []
termination_by sizeOf t

/-- The `for (const key in obj)` loop of `extractStrings` over an object's
fields. -/
def extractFields (kvs : List (String × JTree)) (path : List PathKey) :
    List (List PathKey × Str) :=
  match kvs with
  | [] => []
  | (k, v) :: rest =>
    (match v with
     | .str s =>
       if translatableKeys.contains k && !(jsTrim s).isEmpty then [(path ++ [.fld k], s)]
       else []
     | .arr ys => extractForEach ys 0 (path ++ [.fld k])
     | .obj kvs2 => extractStrings (.obj kvs2) (path ++ [.fld k])
     | .prim => []) ++ extractFields rest path
termination_by sizeOf kvs

/-- The loop body for a field that is an array, i.e.
`value.forEach((item, index) => extractStrings(item, [...newPath, index]))`;
`j` is the index of the first element of `ys`. -/
def extractForEach (ys : List JTree) (j : Nat) (basePath : List PathKey) :
    List (List PathKey × Str) :=
  match ys with
  | [] => []
  | y :: rest => extractStrings y (basePath ++ [.idx j]) ++ extractForEach rest (j + 1) basePath
termination_by sizeOf ys

/-- The `for (const key in obj)` loop of `extractStrings` over an array's
elements; `i` is the index of the first element of `xs` in the enclosing
array. -/
def extractElems (xs : List JTree) (i : Nat) (path : List PathKey) :
    List (List PathKey × Str) :=
  match xs with
  | [] => []
  | x :: rest =>
    (match x with
     | .arr ys => extractForEach ys 0 (path ++ [.idx i])
     | .obj kvs => extractStrings (.obj kvs) (path ++ [.idx i])
     | _ => []) ++ extractElems rest (i + 1) path
termination_by sizeOf xs

end

/-- The write-back loop of `translatePatchouliBookObject`: set each
extracted path to its translated text in the (deep-copied) book. -/
def applyBookTranslations (extractedItems : List (List PathKey × Str))
    (translatedTexts : List Str) (book : JTree) : JTree :=
  extractedItems.enum.foldl (fun acc p =>
    match translatedTexts.get? p.1 with
    | some tv => setValueByPath acc p.2.1 (.str tv)
    | none => acc) book

/-- `translatePatchouliBookObject` from openaiTranslator.js.  The deep copy
`JSON.parse(JSON.stringify(x))` is the identity on `JTree`. -/
def translatePatchouliBookObject (oracle : Oracle) (bookJsonData : JTree) :
    Except FatalErr JTree :=
  match bookJsonData with
  | .str _ => .ok bookJsonData
  | .prim => .ok bookJsonData
  | _ =>
    let extractedItems := extractStrings bookJsonData []
    if extractedItems.length = 0 then .ok bookJsonData
    else
      match translateTextsBatch oracle (extractedItems.map Prod.snd) with
      | .error e => .error e
      | .ok translatedTextsArray =>
        .ok (applyBookTranslations extractedItems translatedTextsArray bookJsonData)

/-- One element of the array produced by the abbreviated private parser
`#parseLocal` in openaiTranslator.js.  That parser stores the key and value
under the abbreviated properties `k` and `v` (and the original line and
line number under `o` and `l`); the properties `value` (read by
`execLOCAL`'s filter) and `tV` (read by `#reconstructLocal`) are *never
set* by any code path, and `translatedValue` is only set by `execLOCAL`.
Missing JavaScript properties are modelled as `Option` fields holding
`none`. -/
structure LItem where
  type : LineType
  k : Str
  v : Str
  value : Option Str
  tV : Option Str
  translatedValue : Option Str
  o : Str
  l : Nat

/-- The abbreviated `#parseLocal` of openaiTranslator.js: same
classification as `parseLocalContent`, storing results under `k`/`v`/`o`/`l`. -/
def parseLocalAbbrev (localContent : Str) : List LItem :=
  (splitLines localContent).enum.map (fun p =>
    let line := p.2
    let n := p.1 + 1
    let t := jsTrim line
    if t.isEmpty then ⟨.empty, [], [], none, none, none, line, n⟩
    else if t.head? = some '#' then ⟨.comment, [], [], none, none, none, line, n⟩
    else
      match breakAtEq line with
      | (pre, some post) =>
        if pre.isEmpty then ⟨.other, [], [], none, none, none, line, n⟩
        else if (jsTrim (jsTrimEnd pre)).isEmpty then ⟨.other, [], [], none, none, none, line, n⟩
        else ⟨.kv, jsTrimEnd pre, post, none, none, none, line, n⟩
      | (_, none) => ⟨.other, [], [], none, none, none, line, n⟩)

/-- The abbreviated `#reconstructLocal` of openaiTranslator.js: note that it
reads the never-set property `tV`, so a `kv` line always serializes its
parsed value `v`. -/
def reconstructLocalAbbrev (parsedData : List LItem) : Str :=
  joinLines (parsedData.map (fun i =>
    if i.type = LineType.kv then
      i.k ++ '=' :: (match i.tV with
        | some tv => tv
        | none => i.v)
    else i.o))

/-- The extraction filter of `execLOCAL` in openaiTranslator.js, paired
with the index of each selected item: it reads `item.value`, which
`#parseLocal` never sets. -/
def execLOCALTexts (parsedData : List LItem) : List (Nat × Str) :=
  parsedData.enum.filterMap (fun p =>
    if p.2.type = LineType.kv then
      match p.2.value with
      | some s => if (jsTrim s).isEmpty then none else some (p.1, s)
      | none => none
    else none)

/-- The write-back loop of `execLOCAL`: store each translated text in the
`translatedValue` property of the parsed item it came from. -/
def applyLocalTranslations (parsedData : List LItem) (indicesToUpdate : List Nat)
    (translatedTexts : List Str) : List LItem :=
  translatedTexts.enum.foldl (fun acc p =>
    match indicesToUpdate.get? p.1 with
    | some oi => listModifyAt (fun it => { it with translatedValue := some p.2 }) oi acc
    | none => acc) parsedData

/-- `execLOCAL` from openaiTranslator.js. -/
def execLOCAL (oracle : Oracle) (localContent : Str) : Except FatalErr Str :=
  let parsedData := parseLocalAbbrev localContent
  let pairs := execLOCALTexts parsedData
  if pairs.length = 0 then .ok localContent
  else
    match translateTextsBatch oracle (pairs.map Prod.snd) with
    | .error e => .error e
    | .ok translatedTexts =>
      .ok (reconstructLocalAbbrev
        (applyLocalTranslations parsedData (pairs.map Prod.fst) translatedTexts))

/-- The filter applied to the values of a flat JSON language object by
`execJSON`: non-empty strings only. -/
def execJSONKept (jsonData : List (String × JTree)) : List (String × JTree) :=
  jsonData.filter (fun p =>
    match p.2 with
    | .str v => !(jsTrim v).isEmpty
    | _ => false)

/-- JavaScript `translatedData[key] = value` on the spread copy inside
`execJSON`. -/
def setJsonKey (j : List (String × JTree)) (k : String) (v : JTree) : List (String × JTree) :=
  if (j.map Prod.fst).contains k then
    j.map (fun p => (p.1, if p.1 = k then v else p.2))
  else j ++ [(k, v)]

/-- The write-back loop of `execJSON`: the i-th translated text is stored
under the i-th extracted key. -/
def applyJsonUpdates (j : List (String × JTree)) (keysToTranslate : List String)
    (translatedTexts : List Str) : List (String × JTree) :=
  translatedTexts.enum.foldl (fun acc p =>
    match keysToTranslate.get? p.1 with
    | some k => setJsonKey acc k (.str p.2)
    | none => acc) j

/-- `execJSON` from openaiTranslator.js: translate the non-empty string
values of a flat JSON object, leaving every other entry unchanged. -/
def execJSON (oracle : Oracle) (jsonData : List (String × JTree)) :
    Except FatalErr (List (String × JTree)) :=
  let kept := execJSONKept jsonData
  let keysToTranslate := kept.map Prod.fst
  let textsToTranslate := kept.map (fun p =>
    match p.2 with
    | .str v => v
    | _ => [])
  if textsToTranslate.length = 0 then .ok jsonData
  else
    match translateTextsBatch oracle textsToTranslate with
    | .error e => .error e
    | .ok translatedTexts => .ok (applyJsonUpdates jsonData keysToTranslate translatedTexts)

/-- The outcome of one DeepL `translateText` call in `_translateText`
(langTranslator.js), classified by the error taxonomy of its catch block. -/
inductive DeeplOutcome where
  | translated (s : Str)
  | quotaExceeded
  | authorizationError
  | rateLimitExceeded
  | connectionError
  | deeplError
  | unexpectedError
deriving DecidableEq, Repr

/-- `_translateText` from langTranslator.js: quota and authorization
failures are re-thrown, every other DeepL failure returns the original
text. -/
def translateTextDeepL (outcome : DeeplOutcome) (text : Str) : Except FatalErr Str :=
  if (jsTrim text).isEmpty then .ok text
  else
    match outcome with
    | .translated s => .ok s
    | .quotaExceeded => .error .deeplQuota
    | .authorizationError => .error .deeplAuth
    | .rateLimitExceeded => .ok text
    | .connectionError => .ok text
    | .deeplError => .ok text
    | .unexpectedError => .ok text

/-- The fields of one worker-reported file record that `getCacheKey` and its
callers use. -/
structure FileInfo where
  originalJar : Str
  originalPathInJar : Str
  nspace : Str
  content : Str
  isJson : Bool

/-- `getCacheKey` from indexModTranslator.js: an md5 digest (abstracted as
`md5`) of `` `${jar}-${path}-${lang}-${ver}` ``. -/
def getCacheKey (md5 : Str → Str) (fileInfo : FileInfo) (targetLangCode : Str)
    (promptVer : Str) : Str :=
  md5 (fileInfo.originalJar ++ '-' :: fileInfo.originalPathInJar ++
    '-' :: targetLangCode ++ '-' :: promptVer)

/-- The outcome of one cache-file read. -/
inductive CacheReadOutcome where
  | ok (data : Str)
  | enoent
  | ioError
deriving Repr

/-- The outcome of one cache-file write (directory creation included). -/
inductive CacheWriteOutcome where
  | ok
  | ioError
deriving DecidableEq, Repr

/-- Cache-layer errors; the embedded cache helpers could propagate them in
their `Except` result type, but never do. -/
inductive CacheIoError where
  | failure
deriving DecidableEq, Repr

/-- `path.join(CACHE_DIRECTORY, cacheKey + ".json")`. -/
def cacheFilePath (cacheDir : Str) (cacheKey : Str) : Str :=
  cacheDir ++ '/' :: cacheKey ++ (".json".data)

/-- `readFromCache` from indexModTranslator.js, over a file-system oracle
`fsRead` and a `JSON.parse` oracle `parseJson` (whose `none` means the
parse threw).  Every failure is caught and becomes `none` ("absent"). -/
def readFromCache (α : Type) (cacheEnabled : Bool) (fsRead : Str → CacheReadOutcome)
    (parseJson : Str → Option α) (cacheDir cacheKey : Str) : Except CacheIoError (Option α) :=
  if !cacheEnabled then .ok none
  else
    match fsRead (cacheFilePath cacheDir cacheKey) with
    | .ok data =>
      match parseJson data with
      | some v => .ok (some v)
      | none => .ok none
    | .enoent => .ok none
    | .ioError => .ok none

/-- `writeToCache` from indexModTranslator.js: a failed store is logged and
swallowed. -/
def writeToCache (cacheEnabled : Bool) (fsWrite : Str → Str → CacheWriteOutcome)
    (cacheDir cacheKey serialized : Str) : Except CacheIoError Unit :=
  if !cacheEnabled then .ok ()
  else
    match fsWrite (cacheFilePath cacheDir cacheKey) serialized with
    | .ok => .ok ()
    | .ioError => .ok ()

/-- A default `ParsedLine`, used only to state indexed properties via `getD`. -/
def dummyParsedLine : ParsedLine := ⟨.other, [], [], none, [], 0⟩

/-- A remote environment for the C2 counterexample: a two-unit batch gets a
parse failure whose message matches none of the truncation patterns (a real
V8 `JSON.parse` message), while any single-unit batch would succeed. -/
def oracleParseFailPlain : Oracle := fun texts _ _ =>
  if texts.length = 1 then .success (fun _ => .strVal ("A".data))
  else .parseFail ("Bad control character in string literal in JSON at position 5".data)

/-- A remote environment whose every call fails to parse with a
truncation-like message, except that single-unit batches succeed. -/
def oracleTruncThenOk : Oracle := fun texts _ _ =>
  if texts.length ≤ 1 then .success (fun _ => .strVal ("X".data))
  else .parseFail ("Unterminated string in JSON at position 99".data)

/-- Decidable equality of `Except` results, for concrete evaluations. -/
instance exceptDecEq {e a : Type} [DecidableEq e] [DecidableEq a] :
    DecidableEq (Except e a) := fun x y =>
  match x, y with
  | .ok u, .ok v => decidable_of_iff (u = v) (by simp)
  | .error u, .error v => decidable_of_iff (u = v) (by simp)
  | .ok _, .error _ => isFalse (by simp)
  | .error _, .ok _ => isFalse (by simp)

/-- An environment whose every call raises an authorization failure. -/
def oracleAuthFail : Oracle := fun _ _ _ => .apiErr (some 401)

/-- An environment for the C3 counterexample: a multi-unit batch fails to
parse with a truncation-like message (forcing a split), and the single-unit
sub-batch retries then hit HTTP 401. -/
def oracleNested401 : Oracle := fun texts _ _ =>
  if texts.length ≤ 1 then .apiErr (some 401)
  else .parseFail ("Unterminated string in JSON at position 99".data)

/-- A flat-map value that `execJSON` extracts for translation: a string
that is non-empty after trimming. -/
def jsonTranslatable (v : JTree) : Prop :=
  ∃ s, v = JTree.str s ∧ jsTrim s ≠ []

/-- A constant success oracle answering every index with `"X"`. -/
def oracleAllX : Oracle := fun _ _ _ => .success (fun _ => .strVal ("X".data))

/-- A sample flat language object: one translatable entry, one non-string
entry, one whitespace-only entry. -/
def sampleFlatJson : List (String × JTree) :=
  [("a", .str ("hi".data)), ("b", .prim), ("c", .str (" ".data))]

/-- The output `execJSON` produces for `sampleFlatJson` under `oracleAllX`. -/
def sampleFlatJsonOut : List (String × JTree) :=
  [("a", .str ("X".data)), ("b", .prim), ("c", .str (" ".data))]

/-- A file-system read oracle that always fails with a non-ENOENT error. -/
def fsReadAlwaysErr : Str → CacheReadOutcome := fun _ => .ioError

/-- A file-system write oracle that always fails. -/
def fsWriteAlwaysErr : Str → Str → CacheWriteOutcome := fun _ _ => .ioError

/-- One path is an initial segment of another. -/
def pathIsPre (p q : List PathKey) : Prop := ∃ r, p ++ r = q

/-- A position of a JSON tree at which `translatePatchouliBookObject` is
allowed to change the value: its final component is an allow-listed object
key and the original value there is a non-empty string. -/
def allowedPos (book : JTree) (q : List PathKey) : Prop :=
  ∃ init k, q = init ++ [PathKey.fld k] ∧ translatableKeys.contains k = true ∧
    ∃ s, lookupPath book q = some (JTree.str s) ∧ jsTrim s ≠ []

/-- Soundness of one extracted item relative to the subtree it was
extracted from: its path extends the base path, ends in an allow-listed
key, and addresses its non-empty string text in the subtree. -/
def SoundItem (t : JTree) (base : List PathKey) (pr : List PathKey × Str) : Prop :=
  ∃ sub k, pr.1 = base ++ sub ++ [PathKey.fld k] ∧ translatableKeys.contains k = true ∧
    lookupPath t (sub ++ [PathKey.fld k]) = some (JTree.str pr.2) ∧ jsTrim pr.2 ≠ []

/-- A concrete Patchouli book: an allow-listed string field, a
non-allow-listed string field, and a page with an allow-listed field
nested under an array. -/
def bookC9 : JTree :=
  .obj [("name", .str ("N".data)), ("n2", .str ("Z".data)),
        ("pages", .arr [.obj [("text", .str ("T".data))]])]

/-- The output `translatePatchouliBookObject` produces for `bookC9` under
`oracleAllX`. -/
def outC9 : JTree :=
  .obj [("name", .str ("X".data)), ("n2", .str ("Z".data)),
        ("pages", .arr [.obj [("text", .str ("X".data))]])]

theorem splitLines_ne_nil (s : Str) : splitLines s ≠ [] := by
  induction s using splitLines.induct with
  | case1 => simp [splitLines]
  | case2 rest ih => simp [splitLines]
  | case3 rest ih => simp [splitLines]
  | case4 c rest h1 h2 h3 ih =>
    rw [splitLines.eq_4 c rest h1 h2, h3]
    simp
  | case5 c rest h1 h2 l ls h3 ih =>
    rw [splitLines.eq_4 c rest h1 h2, h3]
    simp

theorem joinLines_splitLines (s : Str) : joinLines (splitLines s) = normalizeNewlines s := by
  induction s using splitLines.induct with
  | case1 => rfl
  | case2 rest ih =>
    rw [splitLines.eq_2]
    rcases hs : splitLines rest with _ | ⟨l, ls⟩
    · exact absurd hs (splitLines_ne_nil rest)
    · rw [normalizeNewlines.eq_3 '\n' rest (by intro r h _; exact absurd h (by decide)),
        ← ih, hs]
      simp [joinLines]
  | case3 rest ih =>
    rw [splitLines.eq_3]
    rcases hs : splitLines rest with _ | ⟨l, ls⟩
    · exact absurd hs (splitLines_ne_nil rest)
    · rw [normalizeNewlines.eq_2, ← ih, hs]
      simp [joinLines]
  | case4 c rest h1 h2 h3 ih =>
    exact absurd h3 (splitLines_ne_nil rest)
  | case5 c rest h1 h2 l ls h3 ih =>
    rw [splitLines.eq_4 c rest h1 h2, h3,
      normalizeNewlines.eq_3 c rest h2, ← ih, h3]
    cases ls with
    | nil => simp [joinLines]
    | cons x xs => simp [joinLines]

theorem breakAtEq_some {l pre post : Str} (h : breakAtEq l = (pre, some post)) :
    l = pre ++ '=' :: post ∧ '=' ∉ pre := by
  induction l generalizing pre with
  | nil => simp [breakAtEq] at h
  | cons c rest ih =>
    by_cases hc : c = '='
    · subst hc
      simp [breakAtEq] at h
      obtain ⟨h1, h2⟩ := h
      subst h1; subst h2; simp
    · rcases hr : breakAtEq rest with ⟨pre', post'⟩
      rw [breakAtEq, if_neg hc, hr] at h
      obtain ⟨h1, h2⟩ := Prod.mk.injEq _ _ _ _ ▸ h
      rcases post' with _ | p
      · simp at h2
      · simp at h2
        obtain ⟨hl, hni⟩ := ih (hr.trans (by rw [h2]))
        subst h1 h2
        constructor
        · simp [hl]
        · simp [hni, Ne.symm hc]

/-- Helper: a line reconstructed by `reconLine` reproduces the original
line, provided a `kv` line's pre-`'='` prefix carries no trailing
whitespace. -/
theorem reconLine_parseLine (line : Str) (n : Nat)
    (h : ¬(jsTrim line).isEmpty → ¬(jsTrim line).head? = some '#' →
      (breakAtEq line).2.isSome → jsTrimEnd (breakAtEq line).1 = (breakAtEq line).1) :
    reconLine (parseLine line n) = line := by
  unfold parseLine
  by_cases he : (jsTrim line).isEmpty
  · simp [he, reconLine]
  · by_cases hc : (jsTrim line).head? = some '#'
    · simp [he, hc, reconLine]
    · rcases hb : breakAtEq line with ⟨pre, post⟩
      rcases post with _ | post
      · simp [he, hc, hb, reconLine]
      · by_cases hp : pre.isEmpty
        · simp [he, hc, hb, hp, reconLine]
        · by_cases hk : (jsTrim (jsTrimEnd pre)).isEmpty
          · simp [he, hc, hb, hp, hk, reconLine]
          · have hkey : jsTrimEnd pre = pre := by
              have := h he hc (by rw [hb]; simp)
              rwa [hb] at this
            have hline := (breakAtEq_some hb).1
            have hk2 : ¬jsTrim pre = [] := by simpa [List.isEmpty_iff, hkey] using hk
            simp [he, hc, hb, hp, hk2, reconLine, hkey, hline.symm]

/-- C1 counterexample: on the input `"a =b"` the identity round trip is not
byte-identical (even after newline normalization): the key's trailing space
is lost, producing `"a=b"`. -/
theorem C1_roundtrip_counterexample :
    reconstructLocal (parseLocalContent ("a =b".data)) ≠ normalizeNewlines ("a =b".data) := by
  decide

/-- C1 (amended): for every input in which no line classified key-value has
whitespace immediately before its first `'='`, reconstruction of the parse
with the identity transformation (no `translatedValue` set anywhere, which
is how `parseLocalContent` builds its lines) returns the input with every
line ending normalized to LF. -/
theorem C1_roundtrip (s : Str)
    (h : ∀ l ∈ splitLines s, ¬(jsTrim l).isEmpty → ¬(jsTrim l).head? = some '#' →
      (breakAtEq l).2.isSome → jsTrimEnd (breakAtEq l).1 = (breakAtEq l).1) :
    reconstructLocal (parseLocalContent s) = normalizeNewlines s := by
  unfold reconstructLocal parseLocalContent
  rw [List.map_map, ← joinLines_splitLines s]
  congr 1
  have : ∀ p ∈ (splitLines s).enum, (reconLine ∘ fun p => parseLine p.2 (p.1 + 1)) p = p.2 := by
    intro p hp
    exact reconLine_parseLine p.2 (p.1 + 1) (h p.2 (List.snd_mem_of_mem_enum hp))
  calc ((splitLines s).enum).map (reconLine ∘ fun p => parseLine p.2 (p.1 + 1))
      = ((splitLines s).enum).map Prod.snd := List.map_congr_left this
    _ = splitLines s := List.enum_map_snd _

/-- C1 witness: a concrete input with a comment line, a blank line, CRLF
line endings and a key-value line round-trips to its LF-normalized form. -/
theorem C1_roundtrip_witness :
    reconstructLocal (parseLocalContent ("# note\r\n\r\ngreeting=Hello %s!".data)) =
      normalizeNewlines ("# note\r\n\r\ngreeting=Hello %s!".data) :=
  C1_roundtrip ("# note\r\n\r\ngreeting=Hello %s!".data) (by decide)

/-- Helper: full characterization of `parseLine`'s classification of one
line. -/
theorem parseLine_spec (line : Str) (n : Nat) :
    (parseLine line n).lineNumber = n ∧
    (parseLine line n).originalLine = line ∧
    ((parseLine line n).type = LineType.empty ↔ jsTrim line = []) ∧
    ((parseLine line n).type = LineType.comment ↔
      (jsTrim line ≠ [] ∧ (jsTrim line).head? = some '#')) ∧
    ((parseLine line n).type = LineType.kv ↔
      (jsTrim line ≠ [] ∧ ¬(jsTrim line).head? = some '#' ∧
        ∃ pre post, breakAtEq line = (pre, some post) ∧ pre ≠ [] ∧
          jsTrim (jsTrimEnd pre) ≠ [])) ∧
    (∀ pre post, breakAtEq line = (pre, some post) → (parseLine line n).type = LineType.kv →
      (parseLine line n).key = jsTrimEnd pre ∧ (parseLine line n).value = post) := by
  unfold parseLine
  by_cases he : (jsTrim line).isEmpty
  · have he' : jsTrim line = [] := by simpa [List.isEmpty_iff] using he
    simp [he, he']
  · have he' : jsTrim line ≠ [] := by simpa [List.isEmpty_iff] using he
    by_cases hc : (jsTrim line).head? = some '#'
    · simp [he, he', hc]
    · rcases hb : breakAtEq line with ⟨pre, post⟩
      rcases post with _ | post
      · simp [he, hc, hb, he']
      · by_cases hp : pre.isEmpty
        · have hp' : pre = [] := by simpa [List.isEmpty_iff] using hp
          simp [he, hc, hb, hp, he', hp']
        · have hp' : pre ≠ [] := by simpa [List.isEmpty_iff] using hp
          by_cases hk : (jsTrim (jsTrimEnd pre)).isEmpty
          · have hk' : jsTrim (jsTrimEnd pre) = [] := by simpa [List.isEmpty_iff] using hk
            simp [he, hc, hb, hp, hk, he', hp', hk']
          · have hk' : jsTrim (jsTrimEnd pre) ≠ [] := by simpa [List.isEmpty_iff] using hk
            simp [he, hc, hb, hp, hk, he', hp', hk']

/-- C7 counterexample: the line `"\=x"` has no unescaped `'='` in the
spec's sense (its only `'='` is preceded by a backslash), so the claimed
classification makes it unrecognized-passthrough — but `parseLocalContent`
looks for the plain first `'='` and classifies it as key-value. -/
theorem C7_classification_counterexample :
    specFirstUnescapedEq ("\\=x".data) = none ∧
    (parseLocalContent ("\\=x".data)).map ParsedLine.type = [LineType.kv] := by
  decide

/-- C7 (amended): `parseLocalContent` splits its input on both line-ending
conventions and classifies each line into exactly one of four kinds: blank
if it trims to empty; comment if the trimmed line starts with `'#'`;
key-value if the first `'='` — with no escape processing — occurs strictly
after the line start and the text before it is non-blank after trimming,
with the key being that prefix with trailing whitespace removed and the
value everything after the `'='`; otherwise unrecognized-passthrough.  Each
line carries its 1-based line number, and only key-value lines with
non-empty values are extracted for translation. -/
theorem C7_classification (s : Str) (i : Nat) (hi : i < (splitLines s).length) :
    (parseLocalContent s).length = (splitLines s).length ∧
    ((parseLocalContent s).getD i dummyParsedLine =
      parseLine ((splitLines s).getD i []) (i + 1)) ∧
    ((parseLocalContent s).getD i dummyParsedLine).lineNumber = i + 1 ∧
    ((parseLocalContent s).getD i dummyParsedLine).originalLine = (splitLines s).getD i [] ∧
    (((parseLocalContent s).getD i dummyParsedLine).type = LineType.empty ↔
      jsTrim ((splitLines s).getD i []) = []) ∧
    (((parseLocalContent s).getD i dummyParsedLine).type = LineType.comment ↔
      (jsTrim ((splitLines s).getD i []) ≠ [] ∧
        (jsTrim ((splitLines s).getD i [])).head? = some '#')) ∧
    (((parseLocalContent s).getD i dummyParsedLine).type = LineType.kv ↔
      (jsTrim ((splitLines s).getD i []) ≠ [] ∧
        ¬(jsTrim ((splitLines s).getD i [])).head? = some '#' ∧
        ∃ pre post, breakAtEq ((splitLines s).getD i []) = (pre, some post) ∧ pre ≠ [] ∧
          jsTrim (jsTrimEnd pre) ≠ [])) ∧
    (∀ pre post, breakAtEq ((splitLines s).getD i []) = (pre, some post) →
      ((parseLocalContent s).getD i dummyParsedLine).type = LineType.kv →
      ((parseLocalContent s).getD i dummyParsedLine).key = jsTrimEnd pre ∧
        ((parseLocalContent s).getD i dummyParsedLine).value = post) ∧
    (∀ q, q ∈ localKvToTranslate (parseLocalContent s) ↔
      (q ∈ parseLocalContent s ∧ q.type = LineType.kv ∧ jsTrim q.value ≠ [])) := by
  have hlen : (parseLocalContent s).length = (splitLines s).length := by
    simp [parseLocalContent]
  have hget : (parseLocalContent s).getD i dummyParsedLine =
      parseLine ((splitLines s).getD i []) (i + 1) := by
    rw [List.getD_eq_getElem _ _ (by rwa [hlen]), List.getD_eq_getElem _ _ hi]
    simp [parseLocalContent]
  refine ⟨hlen, hget, ?_⟩
  rw [hget]
  obtain ⟨h1, h2, h3, h4, h5, h6⟩ := parseLine_spec ((splitLines s).getD i []) (i + 1)
  refine ⟨h1, h2, h3, h4, h5, h6, ?_⟩
  intro q
  simp [localKvToTranslate, List.mem_filter, List.isEmpty_iff, and_assoc]

/-- C7 witness: the classification theorem applied to a concrete input at
line index 1 (the key-value line of a three-line file). -/
theorem C7_classification_witness :
    ((parseLocalContent ("# c\n key = v \nnoequals".data)).getD 1 dummyParsedLine).type =
        LineType.kv ∧
    ((parseLocalContent ("# c\n key = v \nnoequals".data)).getD 1 dummyParsedLine).key =
        (" key".data) ∧
    ((parseLocalContent ("# c\n key = v \nnoequals".data)).getD 1 dummyParsedLine).value =
        (" v ".data) := by
  have h := C7_classification ("# c\n key = v \nnoequals".data) 1 (by decide)
  obtain ⟨-, -, -, -, -, -, hkv, hkey, -⟩ := h
  have hkvt := hkv.mpr
    ⟨by decide, by decide, (" key ".data), (" v ".data), by decide, by decide, by decide⟩
  refine ⟨hkvt, ?_, ?_⟩
  · exact ((hkey (" key ".data) (" v ".data) (by decide) hkvt).1).trans (by decide)
  · exact (hkey (" key ".data) (" v ".data) (by decide) hkvt).2

/-- Helper: one-step unfolding of `translateBatchInternal`, with the gas
bookkeeping of `translateBatchAux` eliminated. -/
theorem translateBatchInternal_eq (O : Oracle) (texts : List Str) (idxs : List Nat)
    (depth : Nat) :
    translateBatchInternal O texts idxs depth =
      if texts.length = 0 then .ok []
      else
        match O texts idxs depth with
        | .success resp => .ok (successMap resp idxs texts)
        | .parseFail msg =>
          if 1 < texts.length ∧ depth < MAX_SPLIT_DEPTH ∧ truncationLike msg then
            match translateBatchInternal O (texts.take (batchMid texts.length))
                (idxs.take (batchMid texts.length)) (depth + 1) with
            | .error _ => .ok (fallbackMap idxs texts)
            | .ok firstHalfResults =>
              match translateBatchInternal O (texts.drop (batchMid texts.length))
                  (idxs.drop (batchMid texts.length)) (depth + 1) with
              | .error _ => .ok (fallbackMap idxs texts)
              | .ok secondHalfResults => .ok (firstHalfResults ++ secondHalfResults)
          else .ok (fallbackMap idxs texts)
        | .apiErr status =>
          if status = some 401 then .error .authFailed
          else if status = some 429 then .error .rateOrQuota
          else .ok (fallbackMap idxs texts) := by
  unfold translateBatchInternal
  rcases hg : MAX_SPLIT_DEPTH - depth with _ | g
  · have hd : ¬depth < MAX_SPLIT_DEPTH := by
      unfold MAX_SPLIT_DEPTH at hg ⊢
      omega
    rw [translateBatchAux, translateBatchStep]
    by_cases h0 : texts.length = 0
    · simp [h0]
    · simp only [if_neg h0]
      cases O texts idxs depth with
      | success resp => rfl
      | parseFail msg => simp [hd]
      | apiErr status => rfl
  · have hg2 : MAX_SPLIT_DEPTH - (depth + 1) = g := by
      unfold MAX_SPLIT_DEPTH at hg ⊢
      omega
    rw [hg2, translateBatchAux, translateBatchStep]

/-- Helper: a successfully parsed response yields a result map whose key
list is exactly the prompt-index list. -/
theorem successMap_keys (resp : Nat → RespEntry) (idxs : List Nat) (texts : List Str)
    (h : idxs.length ≤ texts.length) :
    (successMap resp idxs texts).map Prod.fst = idxs := by
  unfold successMap
  rw [List.map_map]
  have hcong : ∀ p ∈ idxs.zip texts,
      (Prod.fst ∘ fun p : Nat × Str =>
        match resp p.1 with
        | .strVal s => (p.1, s)
        | _ => p) p = Prod.fst p := by
    intro p _
    rcases hr : resp p.1 with _ | _ | s <;> simp [hr]
  rw [List.map_congr_left hcong]
  exact List.map_fst_zip idxs texts h

/-- Helper: the whole-batch fallback map's key list is exactly the
prompt-index list. -/
theorem fallbackMap_keys (idxs : List Nat) (texts : List Str) (h : idxs.length ≤ texts.length) :
    (fallbackMap idxs texts).map Prod.fst = idxs :=
  List.map_fst_zip idxs texts h

/-- Helper: whatever the oracle answers, an `ok` result of the batch
translator has exactly the prompt indices as its key list. -/
theorem translateBatchAux_keys (O : Oracle) : ∀ (gas : Nat) (texts : List Str)
    (idxs : List Nat) (depth : Nat) (m : List (Nat × Str)),
    texts.length = idxs.length →
    translateBatchAux O gas texts idxs depth = .ok m → m.map Prod.fst = idxs := by
  intro gas
  induction gas with
  | zero =>
    intro texts idxs depth m hlen h
    rw [translateBatchAux, translateBatchStep] at h
    by_cases h0 : texts.length = 0
    · rw [if_pos h0] at h
      obtain rfl : ([] : List (Nat × Str)) = m := by simpa using h
      have : idxs = [] := by
        have := hlen
        rw [h0] at this
        exact (List.length_eq_zero.mp this.symm)
      simp [this]
    · rw [if_neg h0] at h
      cases ho : O texts idxs depth with
      | success resp =>
        simp only [ho] at h
        obtain rfl : successMap resp idxs texts = m := by simpa using h
        exact successMap_keys resp idxs texts (le_of_eq hlen.symm)
      | parseFail msg =>
        simp only [ho] at h
        by_cases hc : 1 < texts.length ∧ depth < MAX_SPLIT_DEPTH ∧ truncationLike msg
        · rw [if_pos hc] at h
          obtain rfl : fallbackMap idxs texts = m := by simpa using h
          exact fallbackMap_keys idxs texts (le_of_eq hlen.symm)
        · rw [if_neg hc] at h
          obtain rfl : fallbackMap idxs texts = m := by simpa using h
          exact fallbackMap_keys idxs texts (le_of_eq hlen.symm)
      | apiErr status =>
        simp only [ho] at h
        by_cases h401 : status = some 401
        · simp [h401] at h
        · by_cases h429 : status = some 429
          · simp [h401, h429] at h
          · rw [if_neg h401, if_neg h429] at h
            obtain rfl : fallbackMap idxs texts = m := by simpa using h
            exact fallbackMap_keys idxs texts (le_of_eq hlen.symm)
  | succ g ih =>
    intro texts idxs depth m hlen h
    rw [translateBatchAux, translateBatchStep] at h
    by_cases h0 : texts.length = 0
    · rw [if_pos h0] at h
      obtain rfl : ([] : List (Nat × Str)) = m := by simpa using h
      have : idxs = [] := by
        have := hlen
        rw [h0] at this
        exact (List.length_eq_zero.mp this.symm)
      simp [this]
    · rw [if_neg h0] at h
      cases ho : O texts idxs depth with
      | success resp =>
        simp only [ho] at h
        obtain rfl : successMap resp idxs texts = m := by simpa using h
        exact successMap_keys resp idxs texts (le_of_eq hlen.symm)
      | parseFail msg =>
        simp only [ho] at h
        by_cases hc : 1 < texts.length ∧ depth < MAX_SPLIT_DEPTH ∧ truncationLike msg
        · rw [if_pos hc] at h
          rcases h1 : translateBatchAux O g (texts.take (batchMid texts.length))
              (idxs.take (batchMid texts.length)) (depth + 1) with e1 | m1
          · rw [h1] at h
            obtain rfl : fallbackMap idxs texts = m := by simpa using h
            exact fallbackMap_keys idxs texts (le_of_eq hlen.symm)
          · rw [h1] at h
            rcases h2 : translateBatchAux O g (texts.drop (batchMid texts.length))
                (idxs.drop (batchMid texts.length)) (depth + 1) with e2 | m2
            · rw [h2] at h
              obtain rfl : fallbackMap idxs texts = m := by simpa using h
              exact fallbackMap_keys idxs texts (le_of_eq hlen.symm)
            · rw [h2] at h
              obtain rfl : m1 ++ m2 = m := by simpa using h
              have k1 := ih (texts.take (batchMid texts.length))
                (idxs.take (batchMid texts.length)) (depth + 1) m1 (by simp [hlen]) h1
              have k2 := ih (texts.drop (batchMid texts.length))
                (idxs.drop (batchMid texts.length)) (depth + 1) m2 (by simp [hlen]) h2
              rw [List.map_append, k1, k2, List.take_append_drop]
        · rw [if_neg hc] at h
          obtain rfl : fallbackMap idxs texts = m := by simpa using h
          exact fallbackMap_keys idxs texts (le_of_eq hlen.symm)
      | apiErr status =>
        simp only [ho] at h
        by_cases h401 : status = some 401
        · simp [h401] at h
        · by_cases h429 : status = some 429
          · simp [h401, h429] at h
          · rw [if_neg h401, if_neg h429] at h
            obtain rfl : fallbackMap idxs texts = m := by simpa using h
            exact fallbackMap_keys idxs texts (le_of_eq hlen.symm)

/-- Helper: every invocation recorded by the call-trace instrumentation has
its depth between the root depth and root depth plus the split budget. -/
theorem translateBatchCallsAux_depth (O : Oracle) : ∀ (gas : Nat) (texts : List Str)
    (idxs : List Nat) (depth : Nat) (c : BatchCall),
    c ∈ translateBatchCallsAux O gas texts idxs depth →
    depth ≤ c.depth ∧ c.depth ≤ depth + gas := by
  intro gas
  induction gas with
  | zero =>
    intro texts idxs depth c hc
    rw [translateBatchCallsAux] at hc
    simp at hc
    simp [hc]
  | succ g ih =>
    intro texts idxs depth c hc
    rw [translateBatchCallsAux, translateBatchCallsStep] at hc
    rcases List.mem_cons.mp hc with rfl | hc2
    · simp
    · by_cases h0 : texts.length = 0
      · rw [if_pos h0] at hc2
        simp at hc2
      · rw [if_neg h0] at hc2
        cases ho : O texts idxs depth with
        | success resp =>
          simp only [ho] at hc2
          simp at hc2
        | apiErr status =>
          simp only [ho] at hc2
          simp at hc2
        | parseFail msg =>
          simp only [ho] at hc2
          by_cases hcnd : 1 < texts.length ∧ depth < MAX_SPLIT_DEPTH ∧ truncationLike msg
          · rw [if_pos hcnd] at hc2
            rcases hr : translateBatchAux O g (texts.take (batchMid texts.length))
                (idxs.take (batchMid texts.length)) (depth + 1) with e | m
            · rw [hr] at hc2
              have := ih (texts.take (batchMid texts.length))
                (idxs.take (batchMid texts.length)) (depth + 1) c hc2
              omega
            · rw [hr] at hc2
              rcases List.mem_append.mp hc2 with hm | hm
              · have := ih (texts.take (batchMid texts.length))
                  (idxs.take (batchMid texts.length)) (depth + 1) c hm
                omega
              · have := ih (texts.drop (batchMid texts.length))
                  (idxs.drop (batchMid texts.length)) (depth + 1) c hm
                omega
          · rw [if_neg hcnd] at hc2
            simp at hc2

/-- C2 counterexample: on a two-unit batch whose response fails to parse
with a message matching none of the truncation patterns, the code does not
split (it falls back to the originals in one call), while the claim's
split-on-any-parse-failure behavior retries each unit separately and gets
translations — the two disagree. -/
theorem C2_malformed_counterexample :
    translateBatchInternal oracleParseFailPlain [("a".data), ("b".data)] [0, 1] 0 ≠
      translateBatchClaimed oracleParseFailPlain [("a".data), ("b".data)] [0, 1] 0 := by
  decide

/-- C2 (amended): on a parse failure, if the batch has more than one unit,
the recursion depth is below the maximum split depth *and the parse error
message is truncation-like* (contains "Unterminated string" or "Unexpected
end of JSON input", or "unexpected token" case-insensitively), the batch is
split at its midpoint `⌈n/2⌉` into two sub-batches whose slices partition
it, retried independently, and the result maps merged — and when a
sub-batch retry raises a fatal error, the parent's outer catch swallows the
re-thrown plain error and the whole parent batch falls back to its original
texts; otherwise — including parse failures with other messages — the whole
batch is treated as failed: every unit falls back to its original text and
the call returns normally. -/
theorem C2_malformed_response (O : Oracle) (texts : List Str) (idxs : List Nat)
    (depth : Nat) (msg : Str) (hne : texts.length ≠ 0)
    (ho : O texts idxs depth = .parseFail msg) :
    (¬(1 < texts.length ∧ depth < MAX_SPLIT_DEPTH ∧ truncationLike msg) →
      translateBatchInternal O texts idxs depth = .ok (fallbackMap idxs texts)) ∧
    ((1 < texts.length ∧ depth < MAX_SPLIT_DEPTH ∧ truncationLike msg) →
      (texts.take (batchMid texts.length) ++ texts.drop (batchMid texts.length) = texts) ∧
      (idxs.take (batchMid texts.length) ++ idxs.drop (batchMid texts.length) = idxs) ∧
      (∀ m1 m2,
        translateBatchInternal O (texts.take (batchMid texts.length))
          (idxs.take (batchMid texts.length)) (depth + 1) = .ok m1 →
        translateBatchInternal O (texts.drop (batchMid texts.length))
          (idxs.drop (batchMid texts.length)) (depth + 1) = .ok m2 →
        translateBatchInternal O texts idxs depth = .ok (m1 ++ m2)) ∧
      (∀ e,
        translateBatchInternal O (texts.take (batchMid texts.length))
          (idxs.take (batchMid texts.length)) (depth + 1) = .error e →
        translateBatchInternal O texts idxs depth = .ok (fallbackMap idxs texts)) ∧
      (∀ m1 e,
        translateBatchInternal O (texts.take (batchMid texts.length))
          (idxs.take (batchMid texts.length)) (depth + 1) = .ok m1 →
        translateBatchInternal O (texts.drop (batchMid texts.length))
          (idxs.drop (batchMid texts.length)) (depth + 1) = .error e →
        translateBatchInternal O texts idxs depth = .ok (fallbackMap idxs texts))) := by
  constructor
  · intro hc
    rw [translateBatchInternal_eq, if_neg hne]
    simp only [ho, if_neg hc]
  · intro hc
    refine ⟨List.take_append_drop _ _, List.take_append_drop _ _, ?_, ?_, ?_⟩
    · intro m1 m2 h1 h2
      rw [translateBatchInternal_eq, if_neg hne]
      simp only [ho, if_pos hc, h1, h2]
    · intro e h1
      rw [translateBatchInternal_eq, if_neg hne]
      simp only [ho, if_pos hc, h1]
    · intro m1 e h1 h2
      rw [translateBatchInternal_eq, if_neg hne]
      simp only [ho, if_pos hc, h1, h2]

/-- C2 witness: the amended theorem applied to the plain-parse-failure
oracle on a two-unit batch: the whole batch falls back to originals. -/
theorem C2_malformed_response_witness :
    translateBatchInternal oracleParseFailPlain [("a".data), ("b".data)] [0, 1] 0 =
      .ok (fallbackMap [0, 1] [("a".data), ("b".data)]) :=
  (C2_malformed_response oracleParseFailPlain [("a".data), ("b".data)] [0, 1] 0
    ("Bad control character in string literal in JSON at position 5".data)
    (by decide) (by rfl)).1 (by decide)

/-- C4: batch bisection terminates and conserves units.  Starting from
depth 0 (as both driver call sites do), (i) every recursive invocation,
whatever malformed responses the oracle produces, has depth at most
`MAX_SPLIT_DEPTH`; (ii) the two midpoint sub-batches partition the parent
batch; and (iii) whenever the call returns a result map, its key list is
exactly the original prompt-index list, so the unit count is conserved. -/
theorem C4_bisection (O : Oracle) (texts : List Str) (idxs : List Nat)
    (hlen : texts.length = idxs.length) :
    (∀ c ∈ translateBatchCalls O texts idxs 0, c.depth ≤ MAX_SPLIT_DEPTH) ∧
    (texts.take (batchMid texts.length) ++ texts.drop (batchMid texts.length) = texts ∧
      idxs.take (batchMid texts.length) ++ idxs.drop (batchMid texts.length) = idxs) ∧
    (∀ m, translateBatchInternal O texts idxs 0 = .ok m →
      m.map Prod.fst = idxs ∧ m.length = texts.length) := by
  refine ⟨?_, ⟨List.take_append_drop _ _, List.take_append_drop _ _⟩, ?_⟩
  · intro c hc
    have := translateBatchCallsAux_depth O (MAX_SPLIT_DEPTH - 0) texts idxs 0 c hc
    omega
  · intro m hm
    have hk := translateBatchAux_keys O (MAX_SPLIT_DEPTH - 0) texts idxs 0 m hlen hm
    refine ⟨hk, ?_⟩
    have := congrArg List.length hk
    simpa [hlen] using this

/-- C4 witness: the theorem applied to a three-unit batch under an oracle
that repeatedly produces truncation-like parse failures, forcing splits. -/
theorem C4_bisection_witness :
    (∀ c ∈ translateBatchCalls oracleTruncThenOk
        [("a".data), ("b".data), ("c".data)] [0, 1, 2] 0,
      c.depth ≤ MAX_SPLIT_DEPTH) ∧
    (∀ m, translateBatchInternal oracleTruncThenOk
        [("a".data), ("b".data), ("c".data)] [0, 1, 2] 0 = .ok m →
      m.map Prod.fst = [0, 1, 2] ∧ m.length = 3) := by
  have h := C4_bisection oracleTruncThenOk [("a".data), ("b".data), ("c".data)] [0, 1, 2]
    (by decide)
  exact ⟨h.1, h.2.2⟩

/-- C5: on a well-formed (parseable) response, the call returns a result
map keyed exactly by the batch's prompt indices: an index whose response
entry is a string maps to that string, and an index absent from the
response or bound to a non-string value maps to its original input text —
without raising. -/
theorem C5_wellformed_response (O : Oracle) (texts : List Str) (idxs : List Nat)
    (depth : Nat) (resp : Nat → RespEntry) (hne : texts.length ≠ 0)
    (hlen : texts.length = idxs.length) (ho : O texts idxs depth = .success resp) :
    translateBatchInternal O texts idxs depth = .ok (successMap resp idxs texts) ∧
    (successMap resp idxs texts).map Prod.fst = idxs ∧
    (successMap resp idxs texts).length = idxs.length ∧
    (∀ j, j < idxs.length →
      (∀ s, resp (idxs.getD j 0) = .strVal s →
        (successMap resp idxs texts).getD j (0, []) = (idxs.getD j 0, s)) ∧
      ((resp (idxs.getD j 0) = .absent ∨ resp (idxs.getD j 0) = .nonString) →
        (successMap resp idxs texts).getD j (0, []) = (idxs.getD j 0, texts.getD j []))) := by
  have hzip : ∀ j, j < idxs.length →
      (idxs.zip texts).getD j (0, []) = (idxs.getD j 0, texts.getD j []) := by
    intro j hj
    have hj2 : j < texts.length := by omega
    have hjz : j < (idxs.zip texts).length := by
      rw [List.length_zip]
      omega
    rw [List.getD_eq_getElem _ _ hjz, List.getD_eq_getElem _ _ hj, List.getD_eq_getElem _ _ hj2]
    simp
  refine ⟨?_, successMap_keys resp idxs texts (le_of_eq hlen.symm), ?_, ?_⟩
  · rw [translateBatchInternal_eq, if_neg hne]
    simp only [ho]
  · have := congrArg List.length (successMap_keys resp idxs texts (le_of_eq hlen.symm))
    simpa using this
  · intro j hj
    have hjz : j < (idxs.zip texts).length := by
      rw [List.length_zip]
      omega
    have hgm : (successMap resp idxs texts).getD j (0, []) =
        (match resp ((idxs.zip texts).getD j (0, [])).1 with
          | .strVal s => (((idxs.zip texts).getD j (0, [])).1, s)
          | _ => (idxs.zip texts).getD j (0, [])) := by
      unfold successMap
      have hjm : j < ((idxs.zip texts).map (fun p : Nat × Str =>
          match resp p.1 with
          | .strVal s => (p.1, s)
          | _ => p)).length := by
        rw [List.length_map]
        exact hjz
      rw [List.getD_eq_getElem _ _ hjm, List.getD_eq_getElem _ _ hjz]
      simp
    rw [hzip j hj] at hgm
    constructor
    · intro s hs
      rw [hgm]
      simp only [hs]
    · intro hmiss
      rw [hgm]
      rcases hmiss with hm | hm <;> simp only [hm]

/-- C5 witness: a success response with index 0 translated, index 1 bound
to a non-string and index 2 absent, on a three-unit batch. -/
theorem C5_wellformed_response_witness :
    translateBatchInternal
        (fun _ _ _ => .success (fun i => if i = 0 then .strVal ("X".data)
          else if i = 1 then .nonString else .absent))
        [("a".data), ("b".data), ("c".data)] [0, 1, 2] 0 =
      .ok (successMap (fun i => if i = 0 then .strVal ("X".data)
          else if i = 1 then .nonString else .absent) [0, 1, 2]
        [("a".data), ("b".data), ("c".data)]) :=
  (C5_wellformed_response
    (fun _ _ _ => .success (fun i => if i = 0 then .strVal ("X".data)
      else if i = 1 then .nonString else .absent))
    [("a".data), ("b".data), ("c".data)] [0, 1, 2] 0
    (fun i => if i = 0 then .strVal ("X".data)
      else if i = 1 then .nonString else .absent)
    (by decide) (by decide) (by rfl)).1

/-- C3 counterexample: an authorization failure arising during a split
retry does not abort the run.  Under `oracleNested401` the one-unit
sub-batch call itself raises the fatal authorization error, yet the
two-unit parent call — whose truncation-like parse failure triggered the
split — swallows the re-thrown plain error in its outer catch
(`instanceof OpenAI.APIError` is false) and returns the whole-batch
fallback map, so the driver's run completes normally. -/
theorem C3_failure_taxonomy_counterexample :
    oracleNested401 [("a".data)] [0] 1 = .apiErr (some 401) ∧
    translateBatchInternal oracleNested401 [("a".data)] [0] 1 = .error .authFailed ∧
    translateBatchInternal oracleNested401 [("a".data), ("b".data)] [0, 1] 0 =
      .ok (fallbackMap [0, 1] [("a".data), ("b".data)]) ∧
    runLangBatches oracleNested401 [([("a".data), ("b".data)], [0, 1])] =
      .ok (fallbackMap [0, 1] [("a".data), ("b".data)]) :=
  ⟨rfl, rfl, rfl, rfl⟩

/-- C3 (amended): remote-failure taxonomy.  For the OpenAI batch
translator, HTTP 401 on an invocation's own API request raises the
authorization error and HTTP 429 raises the rate-limit/quota error, while
every other call failure makes the affected batch fall back to its original
texts and return normally; but when the invocation that hit the 401/429 is
a sub-batch retry, its parent's outer catch swallows the re-thrown plain
error and returns the parent's whole-batch fallback map — the run aborts
only when the failure hits the top-level request.  For the DeepL
translator, quota and authorization failures raise, while soft rate
limiting, connection errors, other DeepL errors and unexpected errors all
return the original text.  Both raised error kinds carry messages the
driver recognises as fatal, and the driver loop aborts on them while
continuing past recoverable batches. -/
theorem C3_failure_taxonomy :
    (∀ (O : Oracle) (texts : List Str) (idxs : List Nat) (depth : Nat),
      texts.length ≠ 0 → O texts idxs depth = .apiErr (some 401) →
      translateBatchInternal O texts idxs depth = .error .authFailed) ∧
    (∀ (O : Oracle) (texts : List Str) (idxs : List Nat) (depth : Nat),
      texts.length ≠ 0 → O texts idxs depth = .apiErr (some 429) →
      translateBatchInternal O texts idxs depth = .error .rateOrQuota) ∧
    (∀ (O : Oracle) (texts : List Str) (idxs : List Nat) (depth : Nat)
        (status : Option Nat),
      texts.length ≠ 0 → status ≠ some 401 → status ≠ some 429 →
      O texts idxs depth = .apiErr status →
      translateBatchInternal O texts idxs depth = .ok (fallbackMap idxs texts)) ∧
    (∀ text : Str, jsTrim text ≠ [] →
      translateTextDeepL .quotaExceeded text = .error .deeplQuota) ∧
    (∀ text : Str, jsTrim text ≠ [] →
      translateTextDeepL .authorizationError text = .error .deeplAuth) ∧
    (∀ text : Str, translateTextDeepL .rateLimitExceeded text = .ok text) ∧
    (∀ text : Str, translateTextDeepL .connectionError text = .ok text) ∧
    (∀ text : Str, translateTextDeepL .deeplError text = .ok text) ∧
    (∀ text : Str, translateTextDeepL .unexpectedError text = .ok text) ∧
    (∀ e : FatalErr, driverTreatsAsFatal (fatalMessage e) = true) ∧
    (∀ (O : Oracle) (b : List Str × List Nat) (bs : List (List Str × List Nat))
        (e : FatalErr),
      translateBatchInternal O b.1 b.2 0 = .error e →
      runLangBatches O (b :: bs) = .error e) ∧
    (∀ (O : Oracle) (b : List Str × List Nat) (bs : List (List Str × List Nat))
        (m r : List (Nat × Str)),
      translateBatchInternal O b.1 b.2 0 = .ok m →
      runLangBatches O bs = .ok r →
      runLangBatches O (b :: bs) = .ok (m ++ r)) ∧
    (∀ (O : Oracle) (texts : List Str) (idxs : List Nat) (depth : Nat)
        (msg : Str) (e : FatalErr),
      O texts idxs depth = .parseFail msg →
      (1 < texts.length ∧ depth < MAX_SPLIT_DEPTH ∧ truncationLike msg) →
      translateBatchInternal O (texts.take (batchMid texts.length))
        (idxs.take (batchMid texts.length)) (depth + 1) = .error e →
      translateBatchInternal O texts idxs depth = .ok (fallbackMap idxs texts)) := by
  refine ⟨?_, ?_, ?_, ?_, ?_, ?_, ?_, ?_, ?_, ?_, ?_, ?_, ?_⟩
  · intro O texts idxs depth hne ho
    rw [translateBatchInternal_eq, if_neg hne]
    simp [ho]
  · intro O texts idxs depth hne ho
    rw [translateBatchInternal_eq, if_neg hne]
    simp [ho]
  · intro O texts idxs depth status hne h401 h429 ho
    rw [translateBatchInternal_eq, if_neg hne]
    simp only [ho, if_neg h401, if_neg h429]
  · intro text ht
    unfold translateTextDeepL
    rw [if_neg (by simpa [List.isEmpty_iff] using ht)]
  · intro text ht
    unfold translateTextDeepL
    rw [if_neg (by simpa [List.isEmpty_iff] using ht)]
  · intro text
    unfold translateTextDeepL
    split <;> rfl
  · intro text
    unfold translateTextDeepL
    split <;> rfl
  · intro text
    unfold translateTextDeepL
    split <;> rfl
  · intro text
    unfold translateTextDeepL
    split <;> rfl
  · intro e
    cases e <;> decide
  · intro O b bs e hb
    rcases b with ⟨ts, is⟩
    rw [runLangBatches, hb]
  · intro O b bs m r hb hr
    rcases b with ⟨ts, is⟩
    rw [runLangBatches, hb, hr]
  · intro O texts idxs depth msg e ho hc h1
    obtain ⟨hgt, hd, ht⟩ := hc
    have hne : ¬texts.length = 0 := by omega
    rw [translateBatchInternal_eq, if_neg hne]
    simp only [ho, if_pos (show 1 < texts.length ∧ depth < MAX_SPLIT_DEPTH ∧ truncationLike msg
      from ⟨hgt, hd, ht⟩), h1]

/-- C3 witness: a 401 on a one-unit batch aborts with the authorization
error, whose message the driver treats as fatal. -/
theorem C3_failure_taxonomy_witness :
    translateBatchInternal oracleAuthFail [("a".data)] [0] 0 = .error .authFailed ∧
    translateTextDeepL .quotaExceeded ("x".data) = .error .deeplQuota ∧
    driverTreatsAsFatal (fatalMessage .authFailed) = true :=
  ⟨C3_failure_taxonomy.1 oracleAuthFail [("a".data)] [0] 0 (by decide) rfl,
    (C3_failure_taxonomy.2.2.2.1 ("x".data) (by decide)),
    C3_failure_taxonomy.2.2.2.2.2.2.2.2.2.1 .authFailed⟩

/-- Helper: the abbreviated parser never sets the `value` property. -/
theorem parseLocalAbbrev_value_none (localContent : Str) :
    ∀ it ∈ parseLocalAbbrev localContent, it.value = none := by
  intro it hit
  unfold parseLocalAbbrev at hit
  rw [List.mem_map] at hit
  obtain ⟨p, hp, rfl⟩ := hit
  by_cases h1 : (jsTrim p.2).isEmpty
  · simp [h1]
  · by_cases h2 : (jsTrim p.2).head? = some '#'
    · simp [h1, h2]
    · rcases hb : breakAtEq p.2 with ⟨pre, post⟩
      rcases post with _ | post
      · simp [h1, h2, hb]
      · by_cases h3 : pre.isEmpty
        · simp [h1, h2, hb, h3]
        · by_cases h4 : (jsTrim (jsTrimEnd pre)).isEmpty
          · simp [h1, h2, hb, h3, h4]
          · simp [h1, h2, hb, h3, h4]

/-- C6: `execLOCAL` is the identity on strings and issues no remote call:
its extraction filter reads `item.value`, which the abbreviated parser
`#parseLocal` never sets (it stores parsed values under `v`), so the set of
texts to translate is always empty and the function returns its input
before reaching `translateTextsBatch` — for every oracle. -/
theorem C6_execLOCAL_identity (O : Oracle) (localContent : Str) :
    execLOCALTexts (parseLocalAbbrev localContent) = [] ∧
    execLOCAL O localContent = .ok localContent := by
  have hempty : execLOCALTexts (parseLocalAbbrev localContent) = [] := by
    unfold execLOCALTexts
    rw [List.filterMap_eq_nil_iff]
    intro p hp
    have hv : p.2.value = none :=
      parseLocalAbbrev_value_none localContent p.2 (List.snd_mem_of_mem_enum hp)
    by_cases ht : p.2.type = LineType.kv
    · simp [ht, hv]
    · simp [ht]
  refine ⟨hempty, ?_⟩
  unfold execLOCAL
  simp only [hempty]
  simp

/-- Helper: a successful association-list lookup comes from a member. -/
theorem lookupKey_some_mem {j : List (String × JTree)} {k : String} {v : JTree}
    (h : lookupKey j k = some v) : (k, v) ∈ j := by
  induction j with
  | nil => simp [lookupKey] at h
  | cons p rest ih =>
    rcases p with ⟨k0, v0⟩
    rw [lookupKey] at h
    by_cases hk : k0 = k
    · rw [if_pos hk] at h
      obtain rfl : v0 = v := by simpa using h
      subst hk
      exact List.mem_cons_self _ _
    · rw [if_neg hk] at h
      exact List.mem_cons_of_mem _ (ih h)

/-- Helper: in an association list with pairwise-distinct keys, lookup of a
member's key finds exactly that member's value. -/
theorem lookupKey_eq_of_mem_nodup {j : List (String × JTree)} {k : String} {v : JTree}
    (hnd : (j.map Prod.fst).Nodup) (hm : (k, v) ∈ j) : lookupKey j k = some v := by
  induction j with
  | nil => simp at hm
  | cons p rest ih =>
    rcases p with ⟨k0, v0⟩
    rw [List.map_cons, List.nodup_cons] at hnd
    rcases List.mem_cons.mp hm with heq | hm2
    · obtain ⟨rfl, rfl⟩ := Prod.mk.injEq _ _ _ _ ▸ heq
      simp [lookupKey]
    · have hk : k0 ≠ k := by
        intro hk0
        subst hk0
        exact hnd.1 (List.mem_map.mpr ⟨(k0, v), hm2, rfl⟩)
      rw [lookupKey, if_neg hk]
      exact ih hnd.2 hm2

/-- Helper: `setJsonKey` on a present key keeps the key list. -/
theorem setJsonKey_mapfst {j : List (String × JTree)} {k : String} (v : JTree)
    (hc : k ∈ j.map Prod.fst) : (setJsonKey j k v).map Prod.fst = j.map Prod.fst := by
  unfold setJsonKey
  rw [if_pos (by simpa using hc)]
  rw [List.map_map]
  rfl

/-- Helper: pointwise update of a key's entries does not change other
lookups. -/
theorem lookupKey_updateAll_ne (j : List (String × JTree)) (k k' : String) (v : JTree)
    (hk : k' ≠ k) :
    lookupKey (j.map (fun p => (p.1, if p.1 = k then v else p.2))) k' = lookupKey j k' := by
  induction j with
  | nil => simp [lookupKey]
  | cons p rest ih =>
    rcases p with ⟨k0, v0⟩
    by_cases h1 : k0 = k'
    · subst h1
      have hne : k0 ≠ k := hk
      simp [lookupKey, hne]
    · simp [lookupKey, h1, ih]

/-- Helper: appending a fresh entry does not change other lookups. -/
theorem lookupKey_append_ne (j : List (String × JTree)) (k k' : String) (v : JTree)
    (hk : k' ≠ k) : lookupKey (j ++ [(k, v)]) k' = lookupKey j k' := by
  induction j with
  | nil => simp [lookupKey, Ne.symm hk]
  | cons p rest ih =>
    rcases p with ⟨k0, v0⟩
    rw [List.cons_append, lookupKey, lookupKey]
    by_cases h0 : k0 = k'
    · rw [if_pos h0, if_pos h0]
    · rw [if_neg h0, if_neg h0]
      exact ih

/-- Helper: pointwise update of a present key makes its lookup return the
new value. -/
theorem lookupKey_updateAll_self (j : List (String × JTree)) (k : String) (v : JTree)
    (hmem : k ∈ j.map Prod.fst) :
    lookupKey (j.map (fun p => (p.1, if p.1 = k then v else p.2))) k = some v := by
  induction j with
  | nil => simp at hmem
  | cons p rest ih =>
    rcases p with ⟨k0, v0⟩
    by_cases h0 : k0 = k
    · subst h0
      simp [lookupKey]
    · have hmem2 : k ∈ rest.map Prod.fst := by
        rcases List.mem_cons.mp (by simpa only [List.map_cons] using hmem) with h | h
        · exact absurd h.symm h0
        · exact h
      simp [lookupKey, h0, ih hmem2]

/-- Helper: appending a fresh entry makes its lookup return the new value. -/
theorem lookupKey_append_self (j : List (String × JTree)) (k : String) (v : JTree)
    (hnm : k ∉ j.map Prod.fst) : lookupKey (j ++ [(k, v)]) k = some v := by
  induction j with
  | nil => simp [lookupKey]
  | cons p rest ih =>
    rcases p with ⟨k0, v0⟩
    have h0 : k0 ≠ k := by
      intro h
      exact hnm (by simp [h])
    rw [List.cons_append, lookupKey, if_neg h0]
    exact ih (fun h => hnm (List.mem_cons_of_mem _ h))

/-- Helper: `setJsonKey` does not change lookups of other keys. -/
theorem lookupKey_setJsonKey_ne {j : List (String × JTree)} {k k' : String} (v : JTree)
    (hk : k' ≠ k) : lookupKey (setJsonKey j k v) k' = lookupKey j k' := by
  unfold setJsonKey
  by_cases hc : (j.map Prod.fst).contains k
  · rw [if_pos hc]
    exact lookupKey_updateAll_ne j k k' v hk
  · rw [if_neg hc]
    exact lookupKey_append_ne j k k' v hk

/-- Helper: `setJsonKey` makes the key's lookup return the new value. -/
theorem lookupKey_setJsonKey_self {j : List (String × JTree)} {k : String} (v : JTree) :
    lookupKey (setJsonKey j k v) k = some v := by
  unfold setJsonKey
  by_cases hc : (j.map Prod.fst).contains k
  · rw [if_pos hc]
    exact lookupKey_updateAll_self j k v (by simpa using hc)
  · rw [if_neg hc]
    exact lookupKey_append_self j k v (by simpa using hc)

/-- Helper: the write-back fold of `execJSON` preserves the key list,
leaves non-translatable entries untouched, and keeps translatable entries
bound to (possibly updated) strings — provided every update key is bound to
a translatable value in the original object. -/
theorem applyJsonUpdates_spec (j : List (String × JTree)) (keys : List String)
    (hkeys : ∀ k ∈ keys, ∃ v, lookupKey j k = some v ∧ jsonTranslatable v) :
    ∀ (l : List (Nat × Str)) (acc : List (String × JTree)),
    acc.map Prod.fst = j.map Prod.fst →
    (∀ k v, lookupKey j k = some v → ¬jsonTranslatable v → lookupKey acc k = some v) →
    (∀ k v, lookupKey j k = some v → jsonTranslatable v →
      ∃ s, lookupKey acc k = some (JTree.str s)) →
    ((l.foldl (fun acc p =>
        match keys.get? p.1 with
        | some k => setJsonKey acc k (.str p.2)
        | none => acc) acc).map Prod.fst = j.map Prod.fst ∧
      (∀ k v, lookupKey j k = some v → ¬jsonTranslatable v →
        lookupKey (l.foldl (fun acc p =>
          match keys.get? p.1 with
          | some k => setJsonKey acc k (.str p.2)
          | none => acc) acc) k = some v) ∧
      (∀ k v, lookupKey j k = some v → jsonTranslatable v →
        ∃ s, lookupKey (l.foldl (fun acc p =>
          match keys.get? p.1 with
          | some k => setJsonKey acc k (.str p.2)
          | none => acc) acc) k = some (JTree.str s))) := by
  intro l
  induction l with
  | nil =>
    intro acc h1 h2 h3
    exact ⟨h1, h2, h3⟩
  | cons p rest ih =>
    intro acc h1 h2 h3
    rw [List.foldl_cons]
    rcases hk : keys.get? p.1 with _ | k
    · simp only [hk]
      exact ih acc h1 h2 h3
    · simp only [hk]
      obtain ⟨v0, hv0, htr0⟩ := hkeys k (List.get?_mem hk)
      have hkmem : k ∈ acc.map Prod.fst := by
        rw [h1]
        exact List.mem_map.mpr ⟨(k, v0), lookupKey_some_mem hv0, rfl⟩
      refine ih (setJsonKey acc k (.str p.2)) ?_ ?_ ?_
      · rw [setJsonKey_mapfst _ hkmem, h1]
      · intro k' v hv htv
        have hne : k' ≠ k := by
          intro he
          subst he
          rw [hv] at hv0
          obtain rfl : v = v0 := by simpa using hv0
          exact htv htr0
        rw [lookupKey_setJsonKey_ne _ hne]
        exact h2 k' v hv htv
      · intro k' v hv htv
        by_cases he : k' = k
        · subst he
          exact ⟨p.2, lookupKey_setJsonKey_self _⟩
        · rw [lookupKey_setJsonKey_ne _ he]
          exact h3 k' v hv htv

/-- C8: for every flat JSON object, `execJSON` (when it returns) yields an
object with exactly the same key list; every entry whose value is not a
non-empty string keeps its value, and an entry with a non-empty string
value is still bound to a string (possibly the transformed text). -/
theorem C8_execJSON (O : Oracle) (j out : List (String × JTree))
    (hnd : (j.map Prod.fst).Nodup) (hok : execJSON O j = .ok out) :
    out.map Prod.fst = j.map Prod.fst ∧
    (∀ k v, lookupKey j k = some v → ¬jsonTranslatable v → lookupKey out k = some v) ∧
    (∀ k v, lookupKey j k = some v → jsonTranslatable v →
      ∃ s, lookupKey out k = some (JTree.str s)) := by
  have hself : ∀ k v, lookupKey j k = some v → jsonTranslatable v →
      ∃ s, lookupKey j k = some (JTree.str s) := by
    intro k v hv htv
    obtain ⟨s, rfl, _⟩ := htv
    exact ⟨s, hv⟩
  unfold execJSON at hok
  by_cases h0 : ((execJSONKept j).map (fun p =>
      match p.2 with
      | JTree.str v => v
      | _ => ([] : Str))).length = 0
  · rw [if_pos h0] at hok
    obtain rfl : j = out := by simpa using hok
    exact ⟨rfl, fun k v hv _ => hv, hself⟩
  · rw [if_neg h0] at hok
    rcases ht : translateTextsBatch O ((execJSONKept j).map (fun p =>
        match p.2 with
        | JTree.str v => v
        | _ => ([] : Str))) with e | translated
    · rw [ht] at hok
      simp at hok
    · rw [ht] at hok
      obtain rfl : applyJsonUpdates j ((execJSONKept j).map Prod.fst) translated = out := by
        simpa using hok
      have hkeys : ∀ k ∈ (execJSONKept j).map Prod.fst,
          ∃ v, lookupKey j k = some v ∧ jsonTranslatable v := by
        intro k hkm
        obtain ⟨⟨k1, v1⟩, hkv, hfst⟩ := List.mem_map.mp hkm
        obtain rfl : k1 = k := hfst
        have hmemj := List.mem_filter.mp hkv
        have htv : jsonTranslatable v1 := by
          rcases v1 with s | _ | _ | _
          · refine ⟨s, rfl, ?_⟩
            have := hmemj.2
            simp [List.isEmpty_iff] at this
            exact this
          · simp at hmemj
          · simp at hmemj
          · simp at hmemj
        exact ⟨v1, lookupKey_eq_of_mem_nodup hnd hmemj.1, htv⟩
      have := applyJsonUpdates_spec j ((execJSONKept j).map Prod.fst) hkeys
        translated.enum j rfl (fun _ _ hv _ => hv) hself
      exact this

/-- C8 witness: on the sample object under the constant-success oracle, the
translatable entry becomes `"X"`, the primitive and whitespace-only entries
are untouched, and the key list is preserved. -/
theorem C8_execJSON_witness :
    execJSON oracleAllX sampleFlatJson = .ok sampleFlatJsonOut ∧
    sampleFlatJsonOut.map Prod.fst = sampleFlatJson.map Prod.fst ∧
    lookupKey sampleFlatJsonOut "b" = some JTree.prim ∧
    lookupKey sampleFlatJsonOut "c" = some (JTree.str (" ".data)) := by
  have hok : execJSON oracleAllX sampleFlatJson = .ok sampleFlatJsonOut := by rfl
  have h := C8_execJSON oracleAllX sampleFlatJson sampleFlatJsonOut (by decide) hok
  refine ⟨hok, h.1, ?_, ?_⟩
  · exact h.2.1 "b" JTree.prim (by rfl) (by
      rintro ⟨s, hs, -⟩
      cases hs)
  · exact h.2.1 "c" (JTree.str (" ".data)) (by rfl) (by
      rintro ⟨s, hs, hne⟩
      obtain rfl : (" ".data) = s := by simpa using hs
      exact hne (by decide))

/-- C10: cache-key derivation is deterministic — it depends only on the
archive, the entry path, the target language and the prompt version, not on
the rest of the record — and cache I/O failures are non-fatal:
`readFromCache` never propagates an error and returns `none` (absent) both
when the read fails and when the stored data does not parse, and
`writeToCache` returns normally whatever the write oracle does. -/
theorem C10_cache :
    (∀ (md5 : Str → Str) (f1 f2 : FileInfo) (lang ver : Str),
      f1.originalJar = f2.originalJar → f1.originalPathInJar = f2.originalPathInJar →
      getCacheKey md5 f1 lang ver = getCacheKey md5 f2 lang ver) ∧
    (∀ (α : Type) (enabled : Bool) (fsRead : Str → CacheReadOutcome)
        (parseJson : Str → Option α) (dir key : Str),
      ∃ v, readFromCache α enabled fsRead parseJson dir key = .ok v) ∧
    (∀ (α : Type) (fsRead : Str → CacheReadOutcome) (parseJson : Str → Option α)
        (dir key : Str),
      fsRead (cacheFilePath dir key) = .ioError →
      readFromCache α true fsRead parseJson dir key = .ok none) ∧
    (∀ (α : Type) (fsRead : Str → CacheReadOutcome) (parseJson : Str → Option α)
        (dir key data : Str),
      fsRead (cacheFilePath dir key) = .ok data → parseJson data = none →
      readFromCache α true fsRead parseJson dir key = .ok none) ∧
    (∀ (enabled : Bool) (fsWrite : Str → Str → CacheWriteOutcome) (dir key data : Str),
      writeToCache enabled fsWrite dir key data = .ok ()) := by
  refine ⟨?_, ?_, ?_, ?_, ?_⟩
  · intro md5 f1 f2 lang ver h1 h2
    unfold getCacheKey
    rw [h1, h2]
  · intro α enabled fsRead parseJson dir key
    unfold readFromCache
    by_cases he : enabled
    · simp only [he, Bool.not_true, Bool.false_eq_true, if_false]
      rcases hr : fsRead (cacheFilePath dir key) with data | _ | _
      · rcases hp : parseJson data with _ | v
        · exact ⟨none, by simp [hr, hp]⟩
        · exact ⟨some v, by simp [hr, hp]⟩
      · exact ⟨none, by simp [hr]⟩
      · exact ⟨none, by simp [hr]⟩
    · simp only [Bool.not_eq_true] at he
      simp [he]
  · intro α fsRead parseJson dir key hr
    unfold readFromCache
    simp [hr]
  · intro α fsRead parseJson dir key data hr hp
    unfold readFromCache
    simp [hr, hp]
  · intro enabled fsWrite dir key data
    unfold writeToCache
    by_cases he : enabled
    · simp only [he, Bool.not_true, Bool.false_eq_true, if_false]
      rcases hw : fsWrite (cacheFilePath dir key) data with _ | _ <;> simp [hw]
    · simp only [Bool.not_eq_true] at he
      simp [he]

/-- C10 witness: two records sharing the archive and entry path but
differing in content and namespace get the same key; a failing read behaves
as a cache miss; a failing write returns normally. -/
theorem C10_cache_witness :
    getCacheKey (fun s => s)
        ⟨("j.jar".data), ("assets/a/lang/en_us.json".data), ("a".data), ("x".data), true⟩
        ("ja_jp".data) ("1.1".data) =
      getCacheKey (fun s => s)
        ⟨("j.jar".data), ("assets/a/lang/en_us.json".data), ("b".data), ("y".data), false⟩
        ("ja_jp".data) ("1.1".data) ∧
    readFromCache Str true fsReadAlwaysErr (fun _ => none) ("cache".data) ("k".data) =
      .ok none ∧
    writeToCache true fsWriteAlwaysErr ("cache".data) ("k".data) ("d".data) = .ok () :=
  ⟨C10_cache.1 (fun s => s) _ _ ("ja_jp".data) ("1.1".data) rfl rfl,
    C10_cache.2.2.1 Str fsReadAlwaysErr (fun _ => none) ("cache".data) ("k".data) rfl,
    C10_cache.2.2.2.2 true fsWriteAlwaysErr ("cache".data) ("k".data) ("d".data)⟩

theorem lookupPath_append (t : JTree) (p q : List PathKey) :
    lookupPath t (p ++ q) = (lookupPath t p).bind (fun w => lookupPath w q) := by
  induction p generalizing t with
  | nil => simp [lookupPath]
  | cons k rest ih =>
    rw [List.cons_append, lookupPath, lookupPath]
    rcases jGet t k with _ | sub
    · rfl
    · exact ih sub

theorem jGet_some_isObjLike {t : JTree} {k : PathKey} {v : JTree} (h : jGet t k = some v) :
    isObjLike t = true := by
  cases t <;> cases k <;> simp [jGet, isObjLike] at h ⊢

theorem leaf_lookup_ext_none {v : JTree} (hl : jIsLeaf v = true) {ext : List PathKey}
    (hne : ext ≠ []) : lookupPath v ext = none := by
  rcases ext with _ | ⟨e, ext⟩
  · exact absurd rfl hne
  · cases v <;> simp [jIsLeaf] at hl <;> cases e <;> simp [lookupPath, jGet]

theorem get?_listSetAt_self {α : Type} {xs : List α} {n : Nat} {x : α} (v : α)
    (h : xs.get? n = some x) : (listSetAt xs n v).get? n = some v := by
  induction xs generalizing n with
  | nil => simp at h
  | cons y ys ih =>
    cases n with
    | zero => simp [listSetAt]
    | succ m =>
      rw [listSetAt]
      simpa using ih (by simpa using h)

theorem get?_listSetAt_ne {α : Type} (xs : List α) (n n' : Nat) (v : α)
    (h : n' ≠ n) : (listSetAt xs n v).get? n' = xs.get? n' := by
  induction xs generalizing n n' with
  | nil => simp [listSetAt]
  | cons y ys ih =>
    cases n with
    | zero =>
      cases n' with
      | zero => exact absurd rfl h
      | succ m' => simp [listSetAt]
    | succ m =>
      cases n' with
      | zero => simp [listSetAt]
      | succ m' =>
        rw [listSetAt]
        simpa using ih m m' (fun he => h (by rw [he]))

theorem get?_listModifyAt_self {α : Type} {xs : List α} {n : Nat} {x : α} (f : α → α)
    (h : xs.get? n = some x) : (listModifyAt f n xs).get? n = some (f x) := by
  induction xs generalizing n with
  | nil => simp at h
  | cons y ys ih =>
    cases n with
    | zero =>
      obtain rfl : y = x := by simpa using h
      simp [listModifyAt]
    | succ m =>
      rw [listModifyAt]
      simpa using ih (by simpa using h)

theorem get?_listModifyAt_ne {α : Type} (xs : List α) (n n' : Nat) (f : α → α)
    (h : n' ≠ n) : (listModifyAt f n xs).get? n' = xs.get? n' := by
  induction xs generalizing n n' with
  | nil => simp [listModifyAt]
  | cons y ys ih =>
    cases n with
    | zero =>
      cases n' with
      | zero => exact absurd rfl h
      | succ m' => simp [listModifyAt]
    | succ m =>
      cases n' with
      | zero => simp [listModifyAt]
      | succ m' =>
        rw [listModifyAt]
        simpa using ih m m' (fun he => h (by rw [he]))

theorem lookupKey_modify_self {kvs : List (String × JTree)} {k : String} {v : JTree}
    (f : JTree → JTree) (h : lookupKey kvs k = some v) :
    lookupKey (kvs.map (fun p => (p.1, if p.1 = k then f p.2 else p.2))) k = some (f v) := by
  induction kvs with
  | nil => simp [lookupKey] at h
  | cons p rest ih =>
    rcases p with ⟨k0, v0⟩
    rw [lookupKey] at h
    by_cases h0 : k0 = k
    · obtain rfl : v0 = v := by simpa [if_pos h0] using h
      simp [lookupKey, h0]
    · rw [if_neg h0] at h
      simp [lookupKey, h0, ih h]

theorem lookupKey_modify_ne (kvs : List (String × JTree)) (k k' : String)
    (f : JTree → JTree) (h : k' ≠ k) :
    lookupKey (kvs.map (fun p => (p.1, if p.1 = k then f p.2 else p.2))) k' =
      lookupKey kvs k' := by
  induction kvs with
  | nil => simp [lookupKey]
  | cons p rest ih =>
    rcases p with ⟨k0, v0⟩
    by_cases h1 : k0 = k'
    · subst h1
      have hne : k0 ≠ k := h
      simp [lookupKey, hne]
    · simp [lookupKey, h1, ih]

theorem jGet_jModify_same {t : JTree} {k : PathKey} {sub : JTree} (f : JTree → JTree)
    (h : jGet t k = some sub) : jGet (jModify t k f) k = some (f sub) := by
  cases t with
  | str s => simp [jGet] at h
  | prim => simp [jGet] at h
  | arr xs =>
    cases k with
    | fld key => simp [jGet] at h
    | idx n =>
      rw [jGet] at h
      rw [jModify, jGet]
      exact get?_listModifyAt_self f h
  | obj kvs =>
    cases k with
    | idx n => simp [jGet] at h
    | fld key =>
      rw [jGet] at h
      rw [jModify, jGet]
      exact lookupKey_modify_self f h

theorem jGet_jModify_ne (t : JTree) (k k' : PathKey) (f : JTree → JTree) (h : k' ≠ k) :
    jGet (jModify t k f) k' = jGet t k' := by
  cases t with
  | str s => cases k <;> rfl
  | prim => cases k <;> rfl
  | arr xs =>
    cases k with
    | fld key => rfl
    | idx n =>
      cases k' with
      | fld key' => rfl
      | idx n' =>
        rw [jModify, jGet, jGet]
        exact get?_listModifyAt_ne xs n n' f (fun he => h (by rw [he]))
  | obj kvs =>
    cases k with
    | idx n => rfl
    | fld key =>
      cases k' with
      | idx n' => rfl
      | fld key' =>
        rw [jModify, jGet, jGet]
        exact lookupKey_modify_ne kvs key key' f (fun he => h (by rw [he]))

theorem jGet_jSet_self {t : JTree} {k : PathKey} {w : JTree} (v : JTree)
    (h : jGet t k = some w) : jGet (jSet t k v) k = some v := by
  cases t with
  | str s => simp [jGet] at h
  | prim => simp [jGet] at h
  | arr xs =>
    cases k with
    | fld key => simp [jGet] at h
    | idx n =>
      rw [jGet] at h
      rw [jSet, jGet]
      exact get?_listSetAt_self v h
  | obj kvs =>
    cases k with
    | idx n => simp [jGet] at h
    | fld key =>
      rw [jGet] at h
      rw [jSet]
      by_cases hc : (kvs.map Prod.fst).contains key
      · rw [if_pos hc, jGet]
        exact lookupKey_updateAll_self kvs key v (by simpa using hc)
      · rw [if_neg hc, jGet]
        exact lookupKey_append_self kvs key v (by simpa using hc)

theorem jGet_jSet_ne (t : JTree) (k k' : PathKey) (v : JTree) (h : k' ≠ k) :
    jGet (jSet t k v) k' = jGet t k' := by
  cases t with
  | str s => cases k <;> rfl
  | prim => cases k <;> rfl
  | arr xs =>
    cases k with
    | fld key => rfl
    | idx n =>
      cases k' with
      | fld key' => rfl
      | idx n' =>
        rw [jSet, jGet, jGet]
        exact get?_listSetAt_ne xs n n' v (fun he => h (by rw [he]))
  | obj kvs =>
    cases k with
    | idx n => rfl
    | fld key =>
      cases k' with
      | idx n' =>
        rw [jSet]
        by_cases hc : (kvs.map Prod.fst).contains key
        · rw [if_pos hc]
          rfl
        · rw [if_neg hc]
          rfl
      | fld key' =>
        rw [jSet]
        have hne : key' ≠ key := fun he => h (by rw [he])
        by_cases hc : (kvs.map Prod.fst).contains key
        · rw [if_pos hc, jGet, jGet]
          exact lookupKey_updateAll_ne kvs key key' v hne
        · rw [if_neg hc, jGet, jGet]
          exact lookupKey_append_ne kvs key key' v hne

theorem lookupPath_cons_some {t sub : JTree} {k : PathKey} (rest : List PathKey)
    (h : jGet t k = some sub) : lookupPath t (k :: rest) = lookupPath sub rest := by
  rw [lookupPath, h]

theorem lookupPath_cons_none {t : JTree} {k : PathKey} (rest : List PathKey)
    (h : jGet t k = none) : lookupPath t (k :: rest) = none := by
  rw [lookupPath, h]

theorem setValueByPath_single (t : JTree) (k : PathKey) (v : JTree) :
    setValueByPath t [k] v = jSet t k v := rfl

theorem setValueByPath_cons2 (t : JTree) (k r0 : PathKey) (rr : List PathKey) (v : JTree) :
    setValueByPath t (k :: r0 :: rr) v =
      jModify t k (fun cur => if isObjLike cur then setValueByPath cur (r0 :: rr) v else cur) :=
  rfl

theorem setPath_lookup_self : ∀ (p : List PathKey) (t w v : JTree), p ≠ [] →
    lookupPath t p = some w → lookupPath (setValueByPath t p v) p = some v := by
  intro p
  induction p with
  | nil =>
    intro t w v h
    exact absurd rfl h
  | cons k rest ih =>
    intro t w v _ hl
    rcases hg : jGet t k with _ | sub
    · rw [lookupPath_cons_none rest hg] at hl
      simp at hl
    · rw [lookupPath_cons_some rest hg] at hl
      rcases rest with _ | ⟨r0, rr⟩
      · rw [setValueByPath_single, lookupPath_cons_some [] (jGet_jSet_self v hg)]
        rfl
      · have hobj : isObjLike sub = true := by
          rcases hg2 : jGet sub r0 with _ | s2
          · rw [lookupPath_cons_none rr hg2] at hl
            simp at hl
          · exact jGet_some_isObjLike hg2
        rw [setValueByPath_cons2, lookupPath_cons_some _ (jGet_jModify_same _ hg)]
        simp only [hobj, if_true]
        exact ih sub w v (by simp) hl

theorem setPath_lookup_incomp : ∀ (p : List PathKey) (t w v : JTree) (q : List PathKey),
    lookupPath t p = some w → ¬pathIsPre p q → ¬pathIsPre q p →
    lookupPath (setValueByPath t p v) q = lookupPath t q := by
  intro p
  induction p with
  | nil =>
    intro t w v q hl hpq hqp
    exact absurd ⟨q, rfl⟩ hpq
  | cons k rest ih =>
    intro t w v q hl hpq hqp
    rcases q with _ | ⟨k', q'⟩
    · exact absurd ⟨k :: rest, rfl⟩ hqp
    · rcases hg : jGet t k with _ | sub
      · rw [lookupPath_cons_none rest hg] at hl
        simp at hl
      · rw [lookupPath_cons_some rest hg] at hl
        by_cases hk : k' = k
        · subst hk
          have hpq2 : ¬pathIsPre rest q' := by
            rintro ⟨r, hr⟩
            exact hpq ⟨r, by rw [List.cons_append, hr]⟩
          have hqp2 : ¬pathIsPre q' rest := by
            rintro ⟨r, hr⟩
            exact hqp ⟨r, by rw [List.cons_append, hr]⟩
          rcases rest with _ | ⟨r0, rr⟩
          · exact absurd ⟨q', by simp⟩ hpq2
          · have hobj : isObjLike sub = true := by
              rcases hg2 : jGet sub r0 with _ | s2
              · rw [lookupPath_cons_none rr hg2] at hl
                simp at hl
              · exact jGet_some_isObjLike hg2
            rw [setValueByPath_cons2,
              lookupPath_cons_some q' (jGet_jModify_same _ hg),
              lookupPath_cons_some q' hg]
            simp only [hobj, if_true]
            exact ih sub w v q' hl hpq2 hqp2
        · rcases rest with _ | ⟨r0, rr⟩
          · rw [setValueByPath_single, lookupPath, lookupPath,
              jGet_jSet_ne t k k' v hk]
          · rw [setValueByPath_cons2, lookupPath, lookupPath,
              jGet_jModify_ne t k k' _ hk]

theorem setPath_lookup_isSome (p : List PathKey) (t : JTree) (s s' : Str)
    (q : List PathKey) (hl : lookupPath t p = some (JTree.str s)) :
    (lookupPath (setValueByPath t p (JTree.str s')) q).isSome =
      (lookupPath t q).isSome := by
  by_cases hpnil : p = []
  · subst hpnil
    rfl
  · by_cases hpq : pathIsPre p q
    · obtain ⟨ext, rfl⟩ := hpq
      rw [lookupPath_append, lookupPath_append, hl,
        setPath_lookup_self p t (JTree.str s) (JTree.str s') hpnil hl]
      simp only [Option.some_bind]
      rcases ext with _ | ⟨e0, er⟩
      · rfl
      · rw [leaf_lookup_ext_none (v := JTree.str s) (by rfl) (by simp),
          leaf_lookup_ext_none (v := JTree.str s') (by rfl) (by simp)]
    · by_cases hqp : pathIsPre q p
      · obtain ⟨ext, hext⟩ := hqp
        rcases ext with _ | ⟨e0, er⟩
        · exact absurd ⟨[], by simpa using hext.symm⟩ hpq
        · subst hext
          have h1 : (lookupPath t (q ++ e0 :: er) = some (JTree.str s)) := hl
          rw [lookupPath_append] at h1
          have hset := setPath_lookup_self (q ++ e0 :: er) t (JTree.str s)
            (JTree.str s') hpnil hl
          rw [lookupPath_append] at hset
          rcases hq1 : lookupPath t q with _ | w1
          · rw [hq1] at h1
            simp at h1
          · rcases hq2 : lookupPath (setValueByPath t (q ++ e0 :: er) (JTree.str s')) q
                with _ | w2
            · rw [hq2] at hset
              simp at hset
            · simp
      · rw [setPath_lookup_incomp p t (JTree.str s) (JTree.str s') q hl hpq hqp]

theorem wf_obj_cons {k0 : String} {v0 : JTree} {rest : List (String × JTree)}
    (h : wfJsonB (JTree.obj ((k0, v0) :: rest)) = true) :
    wfJsonB v0 = true ∧ wfJsonB (JTree.obj rest) = true ∧ k0 ∉ rest.map Prod.fst := by
  rw [wfJsonB, nodupKeysB, wfFieldsB] at h
  rw [wfJsonB]
  simp only [Bool.and_eq_true, Bool.not_eq_true'] at h
  obtain ⟨⟨hc, hnd⟩, hv, hf⟩ := h
  refine ⟨hv, by simp [hnd, hf], ?_⟩
  intro hm
  rw [List.contains_eq_any_beq] at hc
  have : (rest.map Prod.fst).any (fun k => k0 == k) = true := by
    rw [List.any_eq_true]
    exact ⟨k0, hm, by simp⟩
  rw [this] at hc
  cases hc

theorem wf_arr_cons {x : JTree} {rest : List JTree}
    (h : wfJsonB (JTree.arr (x :: rest)) = true) :
    wfJsonB x = true ∧ wfJsonB (JTree.arr rest) = true := by
  rw [wfJsonB, wfElemsB] at h
  rw [wfJsonB]
  simpa [Bool.and_eq_true] using h

theorem wf_arr_mem {xs : List JTree} (h : wfJsonB (JTree.arr xs) = true) :
    ∀ x ∈ xs, wfJsonB x = true := by
  induction xs with
  | nil => simp
  | cons y rest ih =>
    intro x hx
    obtain ⟨hy, hrest⟩ := wf_arr_cons h
    rcases List.mem_cons.mp hx with rfl | hx2
    · exact hy
    · exact ih hrest x hx2

theorem SoundItem_lift_obj {kvs : List (String × JTree)} {k0 : String} {v : JTree}
    {base : List PathKey} {pr : List PathKey × Str} (hlk : lookupKey kvs k0 = some v)
    (hs : SoundItem v (base ++ [PathKey.fld k0]) pr) :
    SoundItem (JTree.obj kvs) base pr := by
  obtain ⟨sub, k, hpath, hck, hlp, hne⟩ := hs
  refine ⟨PathKey.fld k0 :: sub, k, by rw [hpath]; simp, hck, ?_, hne⟩
  rw [show (PathKey.fld k0 :: sub) ++ [PathKey.fld k] =
      PathKey.fld k0 :: (sub ++ [PathKey.fld k]) from rfl,
    lookupPath_cons_some _ (show jGet (JTree.obj kvs) (PathKey.fld k0) = some v from hlk)]
  exact hlp

theorem SoundItem_lift_arr {xs : List JTree} {m : Nat} {x : JTree}
    {base : List PathKey} {pr : List PathKey × Str} (hg : xs.get? m = some x)
    (hs : SoundItem x (base ++ [PathKey.idx m]) pr) :
    SoundItem (JTree.arr xs) base pr := by
  obtain ⟨sub, k, hpath, hck, hlp, hne⟩ := hs
  refine ⟨PathKey.idx m :: sub, k, by rw [hpath]; simp, hck, ?_, hne⟩
  rw [show (PathKey.idx m :: sub) ++ [PathKey.fld k] =
      PathKey.idx m :: (sub ++ [PathKey.fld k]) from rfl,
    lookupPath_cons_some _ (show jGet (JTree.arr xs) (PathKey.idx m) = some x from hg)]
  exact hlp

theorem SoundItem_obj_tail {k0 : String} {v0 : JTree} {rest : List (String × JTree)}
    {base : List PathKey} {pr : List PathKey × Str} (hnm : k0 ∉ rest.map Prod.fst)
    (hs : SoundItem (JTree.obj rest) base pr) :
    SoundItem (JTree.obj ((k0, v0) :: rest)) base pr := by
  obtain ⟨sub, k, hpath, hck, hlp, hne⟩ := hs
  refine ⟨sub, k, hpath, hck, ?_, hne⟩
  rcases hsub : sub ++ [PathKey.fld k] with _ | ⟨c, q⟩
  · exact absurd hsub (by simp)
  · rw [hsub] at hlp
    rcases hg : jGet (JTree.obj rest) c with _ | w
    · rw [lookupPath_cons_none q hg] at hlp
      simp at hlp
    · rcases c with k1 | n
      · have hlk : lookupKey rest k1 = some w := hg
        have hk1 : k1 ∈ rest.map Prod.fst :=
          List.mem_map.mpr ⟨(k1, w), lookupKey_some_mem hlk, rfl⟩
        have hne0 : k0 ≠ k1 := fun he => hnm (he ▸ hk1)
        rw [lookupPath_cons_some q hg] at hlp
        rw [lookupPath_cons_some q (show jGet (JTree.obj ((k0, v0) :: rest))
            (PathKey.fld k1) = some w from by
          show lookupKey ((k0, v0) :: rest) k1 = some w
          rw [lookupKey, if_neg hne0]
          exact hlk)]
        exact hlp
      · simp [jGet] at hg

/-- Helper: soundness of the extraction traversal, by strong induction on
the size of the subtree being traversed. -/
theorem extract_sound_n : ∀ n : Nat,
    (∀ t : JTree, sizeOf t ≤ n → wfJsonB t = true → ∀ base pr,
      pr ∈ extractStrings t base → SoundItem t base pr) ∧
    (∀ kvs : List (String × JTree), sizeOf kvs ≤ n → wfJsonB (JTree.obj kvs) = true →
      ∀ base pr, pr ∈ extractFields kvs base → SoundItem (JTree.obj kvs) base pr) ∧
    (∀ ys : List JTree, sizeOf ys ≤ n → (∀ y ∈ ys, wfJsonB y = true) →
      ∀ j base pr, pr ∈ extractForEach ys j base →
        ∃ m y, ys.get? m = some y ∧ SoundItem y (base ++ [PathKey.idx (j + m)]) pr) ∧
    (∀ xs : List JTree, sizeOf xs ≤ n → (∀ x ∈ xs, wfJsonB x = true) →
      ∀ i base pr, pr ∈ extractElems xs i base →
        ∃ m x, xs.get? m = some x ∧ SoundItem x (base ++ [PathKey.idx (i + m)]) pr) := by
  intro n
  induction n using Nat.strong_induction_on with
  | _ n ih =>
  refine ⟨?_, ?_, ?_, ?_⟩
  · -- extractStrings
    intro t hsz hwf base pr hpr
    cases t with
    | str s => simp [extractStrings] at hpr
    | prim => simp [extractStrings] at hpr
    | obj kvs =>
      simp only [extractStrings] at hpr
      have hszk : sizeOf kvs ≤ n - 1 := by
        have h1 : sizeOf (JTree.obj kvs) = 1 + sizeOf kvs := by simp
        omega
      have hn1 : n - 1 < n := by
        have h1 : sizeOf (JTree.obj kvs) = 1 + sizeOf kvs := by simp
        omega
      exact (ih (n - 1) hn1).2.1 kvs hszk hwf base pr hpr
    | arr xs =>
      simp only [extractStrings] at hpr
      have hszk : sizeOf xs ≤ n - 1 := by
        have h1 : sizeOf (JTree.arr xs) = 1 + sizeOf xs := by simp
        omega
      have hn1 : n - 1 < n := by
        have h1 : sizeOf (JTree.arr xs) = 1 + sizeOf xs := by simp
        omega
      obtain ⟨m, x, hg, hs⟩ := (ih (n - 1) hn1).2.2.2 xs hszk (wf_arr_mem hwf) 0 base pr hpr
      rw [Nat.zero_add] at hs
      exact SoundItem_lift_arr hg hs
  · -- extractFields
    intro kvs hsz hwf base pr hpr
    induction kvs with
    | nil => simp [extractFields] at hpr
    | cons p rest ihk =>
      rcases p with ⟨k0, v⟩
      obtain ⟨hwv, hwrest, hnm⟩ := wf_obj_cons hwf
      have hszrest : sizeOf rest ≤ n := by
        have h1 : sizeOf ((k0, v) :: rest) = 1 + (1 + sizeOf k0 + sizeOf v) + sizeOf rest := by
          simp
        omega
      cases v with
      | str s =>
        simp only [extractFields] at hpr
        rcases List.mem_append.mp hpr with hh | ht
        · by_cases hcnd : translatableKeys.contains k0 && !(jsTrim s).isEmpty
          · rw [if_pos hcnd] at hh
            obtain rfl : pr = (base ++ [PathKey.fld k0], s) := by simpa using hh
            simp only [Bool.and_eq_true, Bool.not_eq_true'] at hcnd
            refine ⟨[], k0, by simp, hcnd.1, ?_, by
              simpa [List.isEmpty_iff] using hcnd.2⟩
            rw [List.nil_append,
              lookupPath_cons_some [] (show jGet (JTree.obj ((k0, JTree.str s) :: rest))
                (PathKey.fld k0) = some (JTree.str s) from by
                show lookupKey ((k0, JTree.str s) :: rest) k0 = some (JTree.str s)
                rw [lookupKey, if_pos rfl])]
            rfl
          · rw [if_neg hcnd] at hh
            simp at hh
        · exact SoundItem_obj_tail hnm (ihk hszrest hwrest ht)
      | prim =>
        simp only [extractFields] at hpr
        rcases List.mem_append.mp hpr with hh | ht
        · simp at hh
        · exact SoundItem_obj_tail hnm (ihk hszrest hwrest ht)
      | arr ys =>
        simp only [extractFields] at hpr
        rcases List.mem_append.mp hpr with hh | ht
        · have hszys : sizeOf ys ≤ n - 1 := by
            have h1 : sizeOf ((k0, JTree.arr ys) :: rest) =
                1 + (1 + sizeOf k0 + (1 + sizeOf ys)) + sizeOf rest := by simp
            omega
          have hn1 : n - 1 < n := by
            have h1 : sizeOf ((k0, JTree.arr ys) :: rest) =
                1 + (1 + sizeOf k0 + (1 + sizeOf ys)) + sizeOf rest := by simp
            omega
          obtain ⟨m, y, hg, hs⟩ := (ih (n - 1) hn1).2.2.1 ys hszys
            (wf_arr_mem hwv) 0 (base ++ [PathKey.fld k0]) pr hh
          rw [Nat.zero_add] at hs
          exact SoundItem_lift_obj (by rw [lookupKey, if_pos rfl])
            (SoundItem_lift_arr hg hs)
        · exact SoundItem_obj_tail hnm (ihk hszrest hwrest ht)
      | obj kvs2 =>
        simp only [extractFields] at hpr
        rcases List.mem_append.mp hpr with hh | ht
        · have hszv : sizeOf (JTree.obj kvs2) ≤ n - 1 := by
            have h1 : sizeOf ((k0, JTree.obj kvs2) :: rest) =
                1 + (1 + sizeOf k0 + (1 + sizeOf kvs2)) + sizeOf rest := by simp
            have h2 : sizeOf (JTree.obj kvs2) = 1 + sizeOf kvs2 := by simp
            omega
          have hn1 : n - 1 < n := by
            have h1 : sizeOf ((k0, JTree.obj kvs2) :: rest) =
                1 + (1 + sizeOf k0 + (1 + sizeOf kvs2)) + sizeOf rest := by simp
            omega
          have hs := (ih (n - 1) hn1).1 (JTree.obj kvs2) hszv hwv
            (base ++ [PathKey.fld k0]) pr hh
          exact SoundItem_lift_obj (by rw [lookupKey, if_pos rfl]) hs
        · exact SoundItem_obj_tail hnm (ihk hszrest hwrest ht)
  · -- extractForEach
    intro ys hsz hwf j base pr hpr
    induction ys generalizing j with
    | nil => simp [extractForEach] at hpr
    | cons y rest ihy =>
      simp only [extractForEach] at hpr
      rcases List.mem_append.mp hpr with hh | ht
      · have hszy : sizeOf y ≤ n - 1 := by
          have h1 : sizeOf (y :: rest) = 1 + sizeOf y + sizeOf rest := by simp
          have h2 : 1 ≤ sizeOf y := by
            cases y <;> simp
          omega
        have hn1 : n - 1 < n := by
          have h1 : sizeOf (y :: rest) = 1 + sizeOf y + sizeOf rest := by simp
          omega
        have hs := (ih (n - 1) hn1).1 y hszy (hwf y (List.mem_cons_self _ _))
          (base ++ [PathKey.idx j]) pr hh
        exact ⟨0, y, rfl, by simpa using hs⟩
      · have hszrest : sizeOf rest ≤ n := by
          have h1 : sizeOf (y :: rest) = 1 + sizeOf y + sizeOf rest := by simp
          omega
        obtain ⟨m, y2, hg, hs⟩ := ihy hszrest
          (fun z hz => hwf z (List.mem_cons_of_mem _ hz)) (j + 1) ht
        refine ⟨m + 1, y2, by simpa using hg, ?_⟩
        have harith : j + 1 + m = j + (m + 1) := by omega
        rwa [harith] at hs
  · -- extractElems
    intro xs hsz hwf i base pr hpr
    induction xs generalizing i with
    | nil => simp [extractElems] at hpr
    | cons x rest ihx =>
      have hszrest : sizeOf rest ≤ n := by
        have h1 : sizeOf (x :: rest) = 1 + sizeOf x + sizeOf rest := by simp
        omega
      have htail : pr ∈ extractElems rest (i + 1) base →
          ∃ m x2, (x :: rest).get? m = some x2 ∧
            SoundItem x2 (base ++ [PathKey.idx (i + m)]) pr := by
        intro ht
        obtain ⟨m, x2, hg, hs⟩ := ihx hszrest
          (fun z hz => hwf z (List.mem_cons_of_mem _ hz)) (i + 1) ht
        refine ⟨m + 1, x2, by simpa using hg, ?_⟩
        have harith : i + 1 + m = i + (m + 1) := by omega
        rwa [harith] at hs
      cases x with
      | str s =>
        simp only [extractElems] at hpr
        rcases List.mem_append.mp hpr with hh | ht
        · simp at hh
        · exact htail ht
      | prim =>
        simp only [extractElems] at hpr
        rcases List.mem_append.mp hpr with hh | ht
        · simp at hh
        · exact htail ht
      | arr ys =>
        simp only [extractElems] at hpr
        rcases List.mem_append.mp hpr with hh | ht
        · have hszys : sizeOf ys ≤ n - 1 := by
            have h1 : sizeOf (JTree.arr ys :: rest) = 1 + (1 + sizeOf ys) + sizeOf rest := by
              simp
            omega
          have hn1 : n - 1 < n := by
            have h1 : sizeOf (JTree.arr ys :: rest) = 1 + (1 + sizeOf ys) + sizeOf rest := by
              simp
            omega
          obtain ⟨m, y, hg, hs⟩ := (ih (n - 1) hn1).2.2.1 ys hszys
            (wf_arr_mem (hwf _ (List.mem_cons_self _ _))) 0 (base ++ [PathKey.idx i]) pr hh
          rw [Nat.zero_add] at hs
          refine ⟨0, JTree.arr ys, rfl, ?_⟩
          rw [Nat.add_zero]
          exact SoundItem_lift_arr hg hs
        · exact htail ht
      | obj kvs2 =>
        simp only [extractElems] at hpr
        rcases List.mem_append.mp hpr with hh | ht
        · have hszv : sizeOf (JTree.obj kvs2) ≤ n - 1 := by
            have h1 : sizeOf (JTree.obj kvs2 :: rest) =
                1 + (1 + sizeOf kvs2) + sizeOf rest := by simp
            have h2 : sizeOf (JTree.obj kvs2) = 1 + sizeOf kvs2 := by simp
            omega
          have hn1 : n - 1 < n := by
            have h1 : sizeOf (JTree.obj kvs2 :: rest) =
                1 + (1 + sizeOf kvs2) + sizeOf rest := by simp
            omega
          have hs := (ih (n - 1) hn1).1 (JTree.obj kvs2) hszv
            (hwf _ (List.mem_cons_self _ _)) (base ++ [PathKey.idx i]) pr hh
          refine ⟨0, JTree.obj kvs2, rfl, ?_⟩
          rw [Nat.add_zero]
          exact hs
        · exact htail ht

/-- Helper: two distinct positions that both address leaves are
incomparable: neither is a prefix of the other. -/
theorem leafpos_incomp {book : JTree} {p q : List PathKey} {w w2 : JTree}
    (hp : lookupPath book p = some w) (hlw : jIsLeaf w = true)
    (hq : lookupPath book q = some w2) (hlw2 : jIsLeaf w2 = true) (hne : p ≠ q) :
    ¬pathIsPre p q ∧ ¬pathIsPre q p := by
  constructor
  · rintro ⟨ext, rfl⟩
    rcases ext with _ | ⟨e0, er⟩
    · exact hne (by simp)
    · rw [lookupPath_append, hp, Option.some_bind,
        leaf_lookup_ext_none hlw (by simp)] at hq
      cases hq
  · rintro ⟨ext, rfl⟩
    rcases ext with _ | ⟨e0, er⟩
    · exact hne (by simp)
    · rw [lookupPath_append, hq, Option.some_bind,
        leaf_lookup_ext_none hlw2 (by simp)] at hp
      cases hp

/-- Helper: an item extracted from the root is at a non-empty, allow-listed
position addressing its non-empty string text. -/
theorem soundItem_root {book : JTree} {pr : List PathKey × Str}
    (hs : SoundItem book [] pr) :
    pr.1 ≠ [] ∧ allowedPos book pr.1 ∧ lookupPath book pr.1 = some (JTree.str pr.2) ∧
      jsTrim pr.2 ≠ [] := by
  obtain ⟨sub, k, hpath, hck, hlp, hne⟩ := hs
  rw [List.nil_append] at hpath
  have hlook : lookupPath book pr.1 = some (JTree.str pr.2) := by
    rw [hpath]
    exact hlp
  exact ⟨by simp [hpath], ⟨sub, k, hpath, hck, pr.2, hlook, hne⟩, hlook, hne⟩

/-- Helper: an allowed position addresses a string leaf. -/
theorem allowedPos_leaf {book : JTree} {p : List PathKey} (h : allowedPos book p) :
    ∃ s, lookupPath book p = some (JTree.str s) := by
  obtain ⟨init, k, _, _, s, hl, _⟩ := h
  exact ⟨s, hl⟩

/-- Helper: the write-back fold of `translatePatchouliBookObject` keeps
lookup domains, leaves every non-allowed leaf untouched, and keeps every
item position bound to a string — given that all item positions are
non-empty allowed positions of the original book. -/
theorem applyBook_fold (book : JTree) (items : List (List PathKey × Str))
    (translatedTexts : List Str)
    (hitems : ∀ pr ∈ items, pr.1 ≠ [] ∧ allowedPos book pr.1) :
    ∀ (l : List (Nat × (List PathKey × Str))) (acc : JTree),
    (∀ x ∈ l, x.2 ∈ items) →
    (∀ q, (lookupPath acc q).isSome = (lookupPath book q).isSome) →
    (∀ q v, lookupPath book q = some v → jIsLeaf v = true → ¬allowedPos book q →
      lookupPath acc q = some v) →
    (∀ pr ∈ items, ∃ s2, lookupPath acc pr.1 = some (JTree.str s2)) →
    ((∀ q, (lookupPath (l.foldl (fun acc p =>
        match translatedTexts.get? p.1 with
        | some tv => setValueByPath acc p.2.1 (.str tv)
        | none => acc) acc) q).isSome = (lookupPath book q).isSome) ∧
     (∀ q v, lookupPath book q = some v → jIsLeaf v = true → ¬allowedPos book q →
       lookupPath (l.foldl (fun acc p =>
        match translatedTexts.get? p.1 with
        | some tv => setValueByPath acc p.2.1 (.str tv)
        | none => acc) acc) q = some v) ∧
     (∀ pr ∈ items, ∃ s2, lookupPath (l.foldl (fun acc p =>
        match translatedTexts.get? p.1 with
        | some tv => setValueByPath acc p.2.1 (.str tv)
        | none => acc) acc) pr.1 = some (JTree.str s2))) := by
  intro l
  induction l with
  | nil =>
    intro acc _ h1 h2 h3
    exact ⟨h1, h2, h3⟩
  | cons x l ihl =>
    intro acc hl h1 h2 h3
    rw [List.foldl_cons]
    rcases hv : translatedTexts.get? x.1 with _ | tv
    · simp only [hv]
      exact ihl acc (fun y hy => hl y (List.mem_cons_of_mem _ hy)) h1 h2 h3
    · simp only [hv]
      have hx : x.2 ∈ items := hl x (List.mem_cons_self _ _)
      obtain ⟨hpne, hpallowed⟩ := hitems x.2 hx
      obtain ⟨s0, hs0⟩ := h3 x.2 hx
      obtain ⟨sb, hsb⟩ := allowedPos_leaf hpallowed
      refine ihl (setValueByPath acc x.2.1 (.str tv))
        (fun y hy => hl y (List.mem_cons_of_mem _ hy)) ?_ ?_ ?_
      · intro q
        rw [setPath_lookup_isSome x.2.1 acc s0 tv q hs0]
        exact h1 q
      · intro q v hqv hleaf hnall
        have hqne : q ≠ x.2.1 := by
          intro he
          rw [he] at hnall
          exact hnall hpallowed
        obtain ⟨hnpq, hnqp⟩ := leafpos_incomp hsb (by rfl) hqv hleaf
          (fun he => hqne he.symm)
        rw [setPath_lookup_incomp x.2.1 acc (JTree.str s0) (.str tv) q hs0 hnpq hnqp]
        exact h2 q v hqv hleaf hnall
      · intro pr hpr
        by_cases hpe : pr.1 = x.2.1
        · rw [hpe]
          exact ⟨tv, setPath_lookup_self x.2.1 acc (JTree.str s0) (.str tv) hpne hs0⟩
        · obtain ⟨sb2, hsb2⟩ := allowedPos_leaf (hitems pr hpr).2
          obtain ⟨hnpq, hnqp⟩ := leafpos_incomp hsb (by rfl) hsb2 (by rfl)
            (fun he => hpe (he.symm))
          rw [setPath_lookup_incomp x.2.1 acc (JTree.str s0) (.str tv) pr.1 hs0 hnpq hnqp]
          exact h3 pr hpr

theorem snd_mem_of_mem_enumFrom {α : Type} :
    ∀ (l : List α) (n : Nat) (x : Nat × α), x ∈ l.enumFrom n → x.2 ∈ l := by
  intro l
  induction l with
  | nil =>
    intro n x h
    simp [List.enumFrom] at h
  | cons a rest ih =>
    intro n x h
    simp only [List.enumFrom] at h
    rcases List.mem_cons.mp h with h0 | h1
    · subst h0
      exact List.mem_cons_self _ _
    · exact List.mem_cons_of_mem _ (ih (n + 1) x h1)

theorem snd_mem_of_mem_enum {α : Type} {l : List α} {x : Nat × α}
    (h : x ∈ l.enum) : x.2 ∈ l :=
  snd_mem_of_mem_enumFrom l 0 x h

/-- Soundness of `extractStrings` at the root: every extracted item of a
well-formed book is a sound item of the whole book. -/
theorem extractStrings_sound (book : JTree) (hwf : wfJsonB book = true) :
    ∀ pr ∈ extractStrings book [], SoundItem book [] pr :=
  fun pr hpr => (extract_sound_n (sizeOf book)).1 book le_rfl hwf [] pr hpr

/-- Unfolding lemma for `translatePatchouliBookObject`: the string and
primitive early returns coincide with the empty-extraction case. -/
theorem translatePatchouliBookObject_eq (O : Oracle) (book : JTree) :
    translatePatchouliBookObject O book =
      (if (extractStrings book []).length = 0 then .ok book
       else
         match translateTextsBatch O ((extractStrings book []).map Prod.snd) with
         | .error e => .error e
         | .ok tr => .ok (applyBookTranslations (extractStrings book []) tr book)) := by
  cases book with
  | str s =>
    have h : extractStrings (.str s) [] = [] := by simp [extractStrings]
    simp [translatePatchouliBookObject, h]
  | prim =>
    have h : extractStrings .prim [] = [] := by simp [extractStrings]
    simp [translatePatchouliBookObject, h]
  | arr xs => rfl
  | obj kvs => rfl

/-- C9: `translatePatchouliBookObject` changes its well-formed input only
at allow-listed non-empty-string positions.  In this purely functional
embedding the input object is never mutated; for every successful run the
output has exactly the same lookup domain as the input, every leaf at a
non-allow-listed position is unchanged, and every extracted (allow-listed,
non-empty string) position still holds a string in the output. -/
theorem C9_patchouli_frame (O : Oracle) (book out : JTree)
    (hwf : wfJsonB book = true)
    (hok : translatePatchouliBookObject O book = .ok out) :
    (∀ q, (lookupPath out q).isSome = (lookupPath book q).isSome) ∧
    (∀ q v, lookupPath book q = some v → jIsLeaf v = true → ¬allowedPos book q →
      lookupPath out q = some v) ∧
    (∀ pr ∈ extractStrings book [], ∃ s2, lookupPath out pr.1 = some (JTree.str s2)) := by
  rw [translatePatchouliBookObject_eq] at hok
  by_cases h0 : (extractStrings book []).length = 0
  · rw [if_pos h0] at hok
    obtain rfl : book = out := by simpa using hok
    refine ⟨fun q => rfl, fun q v hv _ _ => hv, ?_⟩
    intro pr hpr
    rw [List.length_eq_zero.mp h0] at hpr
    cases hpr
  · rw [if_neg h0] at hok
    rcases htr : translateTextsBatch O ((extractStrings book []).map Prod.snd) with e | tr
    · simp only [htr] at hok
      cases hok
    · simp only [htr] at hok
      obtain rfl : applyBookTranslations (extractStrings book []) tr book = out := by
        simpa using hok
      have hsound := extractStrings_sound book hwf
      have hitems : ∀ pr ∈ extractStrings book [], pr.1 ≠ [] ∧ allowedPos book pr.1 := by
        intro pr hpr
        obtain ⟨h1, h2, _, _⟩ := soundItem_root (hsound pr hpr)
        exact ⟨h1, h2⟩
      have hmain := applyBook_fold book (extractStrings book []) tr hitems
        (extractStrings book []).enum book
        (fun x hx => snd_mem_of_mem_enum hx)
        (fun q => rfl)
        (fun q v hqv _ _ => hqv)
        (fun pr hpr => ⟨pr.2, (soundItem_root (hsound pr hpr)).2.2.1⟩)
      simp only [applyBookTranslations]
      exact hmain

/-- The concrete extraction on `bookC9`. -/
theorem extract_bookC9 :
    extractStrings bookC9 [] =
      [([PathKey.fld "name"], "N".data),
       ([PathKey.fld "pages", PathKey.idx 0, PathKey.fld "text"], "T".data)] := by
  simp +decide [bookC9, extractStrings, extractFields, extractForEach, extractElems,
    translatableKeys, jsTrim, jsTrimStart, jsTrimEnd, isJsWS]

/-- Well-formedness of `bookC9`. -/
theorem wf_bookC9 : wfJsonB bookC9 = true := by
  simp +decide [bookC9, wfJsonB, wfFieldsB, wfElemsB, nodupKeysB]

/-- The concrete successful run on `bookC9`. -/
theorem hok_bookC9 : translatePatchouliBookObject oracleAllX bookC9 = .ok outC9 := by
  rw [translatePatchouliBookObject_eq, extract_bookC9]
  rfl

theorem C9_patchouli_frame_witness :
    (∀ q, (lookupPath outC9 q).isSome = (lookupPath bookC9 q).isSome) ∧
    (∀ q v, lookupPath bookC9 q = some v → jIsLeaf v = true → ¬allowedPos bookC9 q →
      lookupPath outC9 q = some v) ∧
    (∀ pr ∈ extractStrings bookC9 [], ∃ s2, lookupPath outC9 pr.1 = some (JTree.str s2)) :=
  C9_patchouli_frame oracleAllX bookC9 outC9 wf_bookC9 hok_bookC9
